import Mathlib

/-!
Verification development for the fastjson JSON parser/validator.

Byte strings are modelled as `List Nat` (one entry per byte).  The Go code
walks strings with integer offsets into one contiguous buffer; this embedding
renders the same algorithms in suffix-passing style (each function receives
the unconsumed suffix and returns the remaining tail), which is equivalent
because every offset is only ever used to slice the tail of the buffer.
Errors mirror the `fmt.Errorf` wrapping structure with an inductive type.
The recursive-descent parsers are given an explicit fuel argument that
strictly decreases on every mutual call; the top-level entry points supply
fuel `2 * length + 2`, which is ample since every two fuel steps consume at
least one input byte along any call chain.
-/

set_option maxRecDepth 100000

namespace Fastjson

/-- Whitespace test for the four JSON whitespace bytes 0x20, 0x0A, 0x09, 0x0D,
    from `skipWS` / `skipWSSlow` in parser.go. -/
def isWS (c : Nat) : Bool :=
  c = 0x20 || c = 0x0A || c = 0x09 || c = 0x0D

/-- Model of `skipWS` (parser.go): drop the maximal run of leading whitespace
    bytes.  The Go function returns the count of such bytes (or, in the older
    string-returning variant used by validate.go, the suffix directly); both
    are used only to advance past them, which this function performs. -/
def skipWS : List Nat → List Nat
  | [] => []
  | c :: rest => if isWS c then skipWS rest else c :: rest

/-- Decimal digit test, bytes 0x30..0x39. -/
def isDigit (c : Nat) : Bool := 48 ≤ c && c ≤ 57

/-- Value of a hex digit byte, from `strconv.ParseUint(xs, 16, 16)` used on
    four-character escape payloads: digits, lowercase and uppercase letters. -/
def hexVal (c : Nat) : Option Nat :=
  if 48 ≤ c && c ≤ 57 then some (c - 48)
  else if 97 ≤ c && c ≤ 102 then some (c - 97 + 10)
  else if 65 ≤ c && c ≤ 70 then some (c - 65 + 10)
  else none

/-- Model of `strconv.ParseUint(xs, 16, 16)` on exactly four bytes: all four
    must be hex digits (no sign, prefix or underscore is accepted when an
    explicit base is given), and four hex digits always fit 16 bits. -/
def hex4 (a b c d : Nat) : Option Nat :=
  match hexVal a, hexVal b, hexVal c, hexVal d with
  | some va, some vb, some vc, some vd => some (((va * 16 + vb) * 16 + vc) * 16 + vd)
  | _, _, _, _ => none

/-- Surrogate test from `utf16.IsSurrogate`: 0xD800 ≤ r < 0xE000. -/
def isSurrogate (r : Nat) : Bool := 0xD800 ≤ r && r < 0xE000

/-- Model of `utf16.DecodeRune`: a high surrogate followed by a low surrogate
    combines to the supplementary code point, anything else yields the
    replacement character U+FFFD. -/
def decodeRune (r1 r2 : Nat) : Nat :=
  if 0xD800 ≤ r1 && r1 < 0xDC00 && 0xDC00 ≤ r2 && r2 < 0xE000 then
    ((r1 - 0xD800) <<< 10 ||| (r2 - 0xDC00)) + 0x10000
  else 0xFFFD

/-- UTF-8 encoding of a code point, as produced by Go's `string(rune(x))` and
    `string(r)` appends in `unescapeStringBestEffort`.  The call sites only
    pass non-surrogate scalar values (a plain `\uXXXX` payload that is not a
    surrogate, or the result of `decodeRune`, which is a valid code point or
    U+FFFD), so the surrogate/out-of-range replacement of Go's conversion is
    never exercised and the plain encoder is faithful. -/
def utf8Encode (x : Nat) : List Nat :=
  if x < 0x80 then [x]
  else if x < 0x800 then [0xC0 ||| (x >>> 6), 0x80 ||| (x &&& 0x3F)]
  else if x < 0x10000 then
    [0xE0 ||| (x >>> 12), 0x80 ||| ((x >>> 6) &&& 0x3F), 0x80 ||| (x &&& 0x3F)]
  else
    [0xF0 ||| (x >>> 18), 0x80 ||| ((x >>> 12) &&& 0x3F),
     0x80 ||| ((x >>> 6) &&& 0x3F), 0x80 ||| (x &&& 0x3F)]

mutual

/-- Scanning state of `unescapeStringBestEffort` (parser.go) between escapes:
    copy bytes verbatim until the next backslash (the Go code does this with
    `strings.IndexByte(s, 0x5C)` and a bulk append, byte-for-byte the same). -/
def unescapeCont : List Nat → List Nat
  | [] => []
  | c :: rest => if c = 92 then unescapeLoop rest else c :: unescapeCont rest
termination_by s => s.length

/-- State of `unescapeStringBestEffort` directly after a backslash: decode one
    escape sequence.  A trailing lone backslash is dropped (the Go loop exits
    when the remainder after the backslash is empty).  Malformed `\u` payloads
    keep the two bytes `\u` and do not consume the payload; a surrogate payload
    not followed by a syntactically valid `\uYYYY` keeps the six original bytes
    verbatim; a surrogate followed by a valid `\uYYYY` becomes
    `utf8Encode (decodeRune x y)` and consumes both escapes. -/
def unescapeLoop : List Nat → List Nat
  | [] => []
  | 34 :: rest => 34 :: unescapeCont rest
  | 92 :: rest => 92 :: unescapeCont rest
  | 47 :: rest => 47 :: unescapeCont rest
  | 98 :: rest => 8 :: unescapeCont rest
  | 102 :: rest => 12 :: unescapeCont rest
  | 110 :: rest => 10 :: unescapeCont rest
  | 114 :: rest => 13 :: unescapeCont rest
  | 116 :: rest => 9 :: unescapeCont rest
  | 117 :: a :: b :: c :: d :: 92 :: 117 :: e :: f :: g :: h :: rest6 =>
    match hex4 a b c d with
    | none =>
      92 :: 117 :: unescapeCont (a :: b :: c :: d :: 92 :: 117 :: e :: f :: g :: h :: rest6)
    | some x =>
      if isSurrogate x then
        match hex4 e f g h with
        | some y => utf8Encode (decodeRune x y) ++ unescapeCont rest6
        | none =>
          92 :: 117 :: a :: b :: c :: d ::
            unescapeCont (92 :: 117 :: e :: f :: g :: h :: rest6)
      else utf8Encode x ++ unescapeCont (92 :: 117 :: e :: f :: g :: h :: rest6)
  | 117 :: a :: b :: c :: d :: rest4 =>
    match hex4 a b c d with
    | none => 92 :: 117 :: unescapeCont (a :: b :: c :: d :: rest4)
    | some x =>
      if isSurrogate x then 92 :: 117 :: a :: b :: c :: d :: unescapeCont rest4
      else utf8Encode x ++ unescapeCont rest4
  | 117 :: rest => 92 :: 117 :: unescapeCont rest
  | ch :: rest => 92 :: ch :: unescapeCont rest
termination_by s => s.length
decreasing_by all_goals simp_wf <;> simp_arith [List.length]

end

/-- Model of `unescapeStringBestEffort` (parser.go).  The fast path (no
    backslash anywhere) returns the input unchanged, which `unescapeCont`
    reproduces; otherwise the slow loop alternates verbatim copying and
    escape decoding exactly as `unescapeCont`/`unescapeLoop` do. -/
def unescapeStringBestEffort (s : List Nat) : List Nat := unescapeCont s

/-- Model of `parseRawString` (string scan after the opening quote): consume
    through the first closing quote that is preceded by an even run of
    backslashes, returning the raw interior and the tail after the quote.
    The Go code finds quote candidates with `IndexByte` and counts the
    backslashes before each; consuming `\X` pairs one at a time implements
    the same run-parity rule. -/
def parseRawStringAux : List Nat → Option (List Nat × List Nat)
  | [] => none
  | 34 :: rest => some ([], rest)
  | 92 :: c :: rest =>
    match parseRawStringAux rest with
    | some (a, b) => some (92 :: c :: a, b)
    | none => none
  | 92 :: [] => none
  | c :: rest =>
    match parseRawStringAux rest with
    | some (a, b) => some (c :: a, b)
    | none => none

/-- Entry point matching the call convention of the Go `parseRawString`:
    the argument starts right after the opening quote. -/
def parseRawString (s : List Nat) : Option (List Nat × List Nat) :=
  parseRawStringAux s

/-- Model of `parseRawKey`: a fast scan that returns the bytes before the
    first quote when no backslash intervenes and otherwise falls back to the
    full `parseRawString`; both paths stop at the first closing quote that is
    preceded by an even backslash run, so the function coincides with
    `parseRawString`. -/
def parseRawKey (s : List Nat) : Option (List Nat × List Nat) :=
  parseRawString s

/-- Character class consumed by the permissive raw-number scan in
    `parseRawNumber` (parser.go): digits, dot, minus, e, E, plus. -/
def isNumChar (c : Nat) : Bool :=
  (48 ≤ c && c ≤ 57) || c = 46 || c = 45 || c = 101 || c = 69 || c = 43

/-- ASCII lowercase fold used to model `strings.EqualFold` against the ASCII
    literals inf and nan: no code point outside ASCII case-folds to the
    letters i, n, f or a, so byte-level ASCII folding is exact here. -/
def lowerByte (c : Nat) : Nat := if 65 ≤ c && c ≤ 90 then c + 32 else c

/-- Case-insensitive comparison of three bytes against the bytes of a
    three-letter ASCII literal. -/
def eqFold3 (a b c x y z : Nat) : Bool :=
  lowerByte a = x && lowerByte b = y && lowerByte c = z

/-- Model of `parseRawNumber` (parser.go): consume the maximal run of number
    characters.  If the run is empty, or consists of a single sign byte, the
    next three bytes are checked case-insensitively against inf and nan and
    consumed on a match; otherwise scanning fails.  When the run extends to
    the end of the input the whole remaining input is the lexeme. -/
def parseRawNumber (s : List Nat) : Option (List Nat × List Nat) :=
  let run := s.takeWhile isNumChar
  let i := run.length
  match s.drop i with
  | [] => some (s, [])
  | _ :: _ =>
    if i = 0 || (i = 1 && (s.head? = some 45 || s.head? = some 43)) then
      match s.drop i with
      | a :: b :: c :: _ =>
        if eqFold3 a b c 105 110 102 || eqFold3 a b c 110 97 110 then
          some (s.take (i + 3), s.drop (i + 3))
        else none
      | _ => none
    else some (s.take i, s.drop i)


/-- Error values, mirroring the `fmt.Errorf` message structure of parser.go
    and validate.go: leaf constructors stand for the primitive error messages
    and the `in*` wrappers for the nested `"cannot parse X: %s"` wrapping. -/
inductive Err where
  | outOfFuel
  | emptyInput
  | depthExceeded
  | missingCloseBrace
  | missingCloseBracket
  | missingQuote
  | endOfArray
  | endOfObject
  | missArrayComma
  | missObjectComma
  | missingColon
  | missingKeyQuote
  | badValue
  | badNumber
  | badString
  | controlChar
  | unexpectedTail
  | inObject (e : Err)
  | inArray (e : Err)
  | inString (e : Err)
  | inNumber (e : Err)
  | inArrayValue (e : Err)
  | inObjectValue (e : Err)
  | inObjectKey (e : Err)
  | cannotParse (e : Err)
deriving DecidableEq, Repr

/-- An error reports depth exhaustion when its innermost cause is the
    `"too big depth for the nested JSON"` message, through any number of
    message-wrapping layers. -/
def Err.isDepth : Err → Bool
  | .depthExceeded => true
  | .inObject e => e.isDepth
  | .inArray e => e.isDepth
  | .inString e => e.isDepth
  | .inNumber e => e.isDepth
  | .inArrayValue e => e.isDepth
  | .inObjectValue e => e.isDepth
  | .inObjectKey e => e.isDepth
  | .cannotParse e => e.isDepth
  | _ => false

/-- Result-level depth test. -/
def isDepthResult {A : Type} : Except Err A → Bool
  | .error e => e.isDepth
  | .ok _ => false

/-- The `Value` tagged union of parser.go.  `num` carries the raw lexeme
    (the Go struct stores it in `v.s` with tag `TypeNumber` and has no float
    slot); `rawstr`/`str` are the `typeRawString`/`TypeString` states;
    `obj` carries the key-value list in input order together with the
    `keysUnescaped` flag of the embedded `Object`. -/
inductive Val where
  | vnull
  | vtrue
  | vfalse
  | num (s : List Nat)
  | rawstr (s : List Nat)
  | str (s : List Nat)
  | arr (elems : List Val)
  | obj (kvs : List (List Nat × Val)) (keysUnescaped : Bool)

/-- The `Type` tags reported by `Value.Type` (parser.go). -/
inductive GoType where
  | tNull
  | tObject
  | tArray
  | tString
  | tNumber
  | tTrue
  | tFalse
  | tRawString
deriving DecidableEq, Repr

/-- Test used by `escapeString`: the string needs escaping when it contains
    a quote, a backslash, or a byte below 0x20. -/
def hasSpecialChars (s : List Nat) : Bool :=
  s.any (fun c => c = 34 || c = 92 || decide (c < 32))

/-- Lowercase hex digit byte. -/
def hexDigitByte (n : Nat) : Nat := if n < 10 then 48 + n else 87 + n

/-- Modelled from the spec: the slow path of `escapeString` calls
    `strconv.AppendQuote`, whose source is the Go standard library and not
    part of this repository; per the spec the promoted-string escape uses
    the minimal JSON escape set (quote, backslash and bytes below 0x20). -/
def escByte (c : Nat) : List Nat :=
  if c = 34 then [92, 34]
  else if c = 92 then [92, 92]
  else if c < 32 then [92, 117, 48, 48, hexDigitByte (c / 16), hexDigitByte (c % 16)]
  else [c]

/-- Model of `escapeString` (parser.go): fast path surrounds the verbatim
    bytes with quotes when nothing needs escaping, slow path escapes. -/
def escapeString (s : List Nat) : List Nat :=
  if hasSpecialChars s then 34 :: (s.map escByte).flatten ++ [34]
  else 34 :: s ++ [34]

mutual

/-- Model of `Value.MarshalTo` (parser.go): a raw string is emitted between
    quotes verbatim; objects and arrays emit comma-separated entries;
    a promoted string re-escapes; a number emits its lexeme; the three atoms
    emit their literals. -/
def marshal : Val → List Nat
  | .rawstr s => 34 :: s ++ [34]
  | .obj kvs ku => 123 :: marshalKVs kvs ku ++ [125]
  | .arr elems => 91 :: marshalElems elems ++ [93]
  | .str s => escapeString s
  | .num s => s
  | .vtrue => [116, 114, 117, 101]
  | .vfalse => [102, 97, 108, 115, 101]
  | .vnull => [110, 117, 108, 108]

/-- Array entries of `Value.MarshalTo`, comma-separated. -/
def marshalElems : List Val → List Nat
  | [] => []
  | [v] => marshal v
  | v :: rest => marshal v ++ 44 :: marshalElems rest

/-- Object entries of `Object.MarshalTo`: keys verbatim between quotes while
    `keysUnescaped` is false, re-escaped afterwards; comma-separated. -/
def marshalKVs : List (List Nat × Val) → Bool → List Nat
  | [], _ => []
  | [(k, v)], ku =>
    (if ku then escapeString k else 34 :: k ++ [34]) ++ 58 :: marshal v
  | (k, v) :: rest, ku =>
    ((if ku then escapeString k else 34 :: k ++ [34]) ++ 58 :: marshal v)
      ++ 44 :: marshalKVs rest ku

end

/-- The depth bound `MaxDepth` of parser.go. -/
def MaxDepth : Nat := 300

mutual

/-- Model of `parseValue` (parser.go): dispatch on the first byte after the
    caller-side whitespace skip; every entry increments the depth counter and
    fails once it exceeds `MaxDepth`.  The object/array entry checks of
    `parseObject`/`parseArray` (empty composite fast path) are inlined before
    the corresponding loop. -/
def parseValueF : Nat → List Nat → Nat → Except Err (Val × List Nat)
  | 0, _, _ => .error .outOfFuel
  | fuel + 1, s, depth =>
    match s with
    | [] => .error .emptyInput
    | c :: rest =>
      if MaxDepth < depth + 1 then .error .depthExceeded
      else if c = 123 then
        match
          (match skipWS rest with
           | [] => Except.error Err.missingCloseBrace
           | d :: rest1 =>
             if d = 125 then Except.ok (Val.obj [] false, rest1)
             else parseObjectLoopF fuel [] (d :: rest1) (depth + 1)) with
        | .error e => .error (.inObject e)
        | .ok vt => .ok vt
      else if c = 91 then
        match
          (match skipWS rest with
           | [] => Except.error Err.missingCloseBracket
           | d :: rest1 =>
             if d = 93 then Except.ok (Val.arr [], rest1)
             else parseArrayLoopF fuel [] (d :: rest1) (depth + 1)) with
        | .error e => .error (.inArray e)
        | .ok vt => .ok vt
      else if c = 34 then
        match parseRawString rest with
        | none => .error (.inString .missingQuote)
        | some (ss, tail) => .ok (.rawstr ss, tail)
      else if c = 116 then
        match rest with
        | 114 :: 117 :: 101 :: r => .ok (.vtrue, r)
        | _ => .error .badValue
      else if c = 102 then
        match rest with
        | 97 :: 108 :: 115 :: 101 :: r => .ok (.vfalse, r)
        | _ => .error .badValue
      else if c = 110 then
        match rest with
        | 117 :: 108 :: 108 :: r => .ok (.vnull, r)
        | a1 :: a2 :: r2 =>
          if (a1 = 97 || a1 = 65) && (a2 = 110 || a2 = 78) then
            .ok (.num [110, a1, a2], r2)
          else .error .badValue
        | _ => .error .badValue
      else
        match parseRawNumber s with
        | none => .error (.inNumber .badNumber)
        | some (ns, tail) => .ok (.num ns, tail)

/-- Model of the element loop of `parseArray` (parser.go). -/
def parseArrayLoopF : Nat → List Val → List Nat → Nat → Except Err (Val × List Nat)
  | 0, _, _, _ => .error .outOfFuel
  | fuel + 1, acc, s, depth =>
    match parseValueF fuel (skipWS s) depth with
    | .error e => .error (.inArrayValue e)
    | .ok (v, s2) =>
      match skipWS s2 with
      | [] => .error .endOfArray
      | d :: s3 =>
        if d = 44 then parseArrayLoopF fuel (acc ++ [v]) s3 depth
        else if d = 93 then .ok (.arr (acc ++ [v]), s3)
        else .error .missArrayComma

/-- Model of the entry loop of `parseObject` (parser.go). -/
def parseObjectLoopF :
    Nat → List (List Nat × Val) → List Nat → Nat → Except Err (Val × List Nat)
  | 0, _, _, _ => .error .outOfFuel
  | fuel + 1, acc, s, depth =>
    match skipWS s with
    | 34 :: s1 =>
      match parseRawKey s1 with
      | none => .error (.inObjectKey .missingQuote)
      | some (k, s2) =>
        match skipWS s2 with
        | 58 :: s3 =>
          match parseValueF fuel (skipWS s3) depth with
          | .error e => .error (.inObjectValue e)
          | .ok (v, s4) =>
            match skipWS s4 with
            | [] => .error .endOfObject
            | d :: s5 =>
              if d = 44 then parseObjectLoopF fuel (acc ++ [(k, v)]) s5 depth
              else if d = 125 then .ok (.obj (acc ++ [(k, v)]) false, s5)
              else .error .missObjectComma
        | _ => .error .missingColon
    | _ => .error .missingKeyQuote

end

/-- Fuel supplied by the top-level entry points: ample, since every mutual
    call strictly decreases fuel and every two fuel steps consume at least
    one input byte along any call chain. -/
def fuelFor (s : List Nat) : Nat := 2 * s.length + 2

/-- Model of `Parser.Parse` (parser.go): trim leading whitespace, parse one
    value, then require the remaining tail to be all whitespace. -/
def parse (s : List Nat) : Except Err Val :=
  let s1 := skipWS s
  match parseValueF (fuelFor s1) s1 0 with
  | .error e => .error (.cannotParse e)
  | .ok (v, tail) =>
    match skipWS tail with
    | [] => .ok v
    | _ :: _ => .error .unexpectedTail

/-- Success test for the top-level parse. -/
def parseOk (s : List Nat) : Bool :=
  match parse s with
  | .ok _ => true
  | .error _ => false

/-- Depth-failure test for the top-level parse. -/
def parseDepthErr (s : List Nat) : Bool :=
  match parse s with
  | .error e => e.isDepth
  | .ok _ => false

/-- A document consisting of n nested arrays. -/
def nestedArrays (n : Nat) : List Nat :=
  List.replicate n 91 ++ List.replicate n 93

mutual

/-- Escape checker of `validateString` (validate.go) between escapes: scan to
    the next backslash. -/
def validateEscCont : List Nat → Bool
  | [] => true
  | c :: rs => if c = 92 then validateEscAfter rs else validateEscCont rs

/-- Escape checker of `validateString` directly after a backslash: the eight
    simple escapes, or `u` followed by four hex digits; anything else fails.
    A backslash at the very end of the interior exits the Go loop without an
    error (such an interior cannot be produced by `parseRawString` anyway). -/
def validateEscAfter : List Nat → Bool
  | [] => true
  | 117 :: a :: b :: c :: d :: rs4 => (hex4 a b c d).isSome && validateEscCont rs4
  | 117 :: _ => false
  | ch :: rs =>
    if ch = 34 || ch = 92 || ch = 47 || ch = 98 || ch = 102
        || ch = 110 || ch = 114 || ch = 116 then validateEscCont rs
    else false

end

/-- Model of `validateString` (validate.go): scan the raw string with
    `parseRawString`, then check every escape sequence in the interior. -/
def validateString (s : List Nat) : Except Err (List Nat) :=
  match parseRawString s with
  | none => .error .missingQuote
  | some (rs, tail) => if validateEscCont rs then .ok tail else .error .badString

/-- Exponent part of `validateNumber` (validate.go): nothing, or e/E with an
    optional sign and at least one digit. -/
def vnExp (r : List Nat) : Except Err (List Nat) :=
  match r with
  | [] => .ok []
  | c :: r2 =>
    if c = 101 || c = 69 then
      match r2 with
      | [] => .error .badNumber
      | d :: r3 =>
        let r4 := if d = 45 || d = 43 then r3 else d :: r3
        match r4 with
        | [] => .error .badNumber
        | _ :: _ =>
          let ds := r4.takeWhile isDigit
          if ds.length = 0 then .error .badNumber
          else .ok (r4.drop ds.length)
    else .ok (c :: r2)

/-- Fractional part of `validateNumber` (validate.go): nothing, or a dot with
    at least one digit, then the exponent part. -/
def vnFrac : List Nat → Except Err (List Nat)
  | [] => vnExp []
  | c :: r2 =>
    if c = 46 then
      match r2 with
      | [] => .error .badNumber
      | _ :: _ =>
        let ds := r2.takeWhile isDigit
        if ds.length = 0 then .error .badNumber
        else
          match r2.drop ds.length with
          | [] => .ok []
          | e :: r3 => vnExp (e :: r3)
    else vnExp (c :: r2)

/-- Body of `validateNumber` after the optional minus has been stripped:
    at least one digit; if the digits reach the end of the input the
    function returns before the redundant-leading-zero check; otherwise
    a multi-digit run starting with 0 is rejected and the optional fraction
    and exponent follow. -/
def vnBody (s1 : List Nat) : Except Err (List Nat) :=
  match s1 with
  | [] => .error .badNumber
  | _ :: _ =>
    let ds := s1.takeWhile isDigit
    if ds.length = 0 then .error .badNumber
    else
      match s1.drop ds.length with
      | [] => .ok []
      | e :: r1 =>
        if ds.head? = some 48 ∧ ds.length ≠ 1 then .error .badNumber
        else vnFrac (e :: r1)

/-- Model of `validateNumber` (validate.go): optional minus, then `vnBody`.
    A bare `00` passes because the early return on digits-to-end precedes
    the leading-zero check. -/
def validateNumber : List Nat → Except Err (List Nat)
  | [] => .error .badNumber
  | c :: r => vnBody (if c = 45 then r else c :: r)

mutual

/-- Model of `validateValue` (validate.go): the strict grammar, sharing the
    raw-string scanner with the permissive parser; note there is no depth
    counter anywhere in validate.go. -/
def validateValueF : Nat → List Nat → Except Err (List Nat)
  | 0, _ => .error .outOfFuel
  | fuel + 1, s =>
    match s with
    | [] => .error .emptyInput
    | c :: rest =>
      if c = 123 then
        match
          (match skipWS rest with
           | [] => Except.error Err.missingCloseBrace
           | d :: rest1 =>
             if d = 125 then Except.ok rest1
             else validateObjectLoopF fuel (d :: rest1)) with
        | .error e => .error (.inObject e)
        | .ok t => .ok t
      else if c = 91 then
        match
          (match skipWS rest with
           | [] => Except.error Err.missingCloseBracket
           | d :: rest1 =>
             if d = 93 then Except.ok rest1
             else validateArrayLoopF fuel (d :: rest1)) with
        | .error e => .error (.inArray e)
        | .ok t => .ok t
      else if c = 34 then
        match validateString rest with
        | .error e => .error (.inString e)
        | .ok t => .ok t
      else if c = 116 then
        match rest with
        | 114 :: 117 :: 101 :: r => .ok r
        | _ => .error .badValue
      else if c = 102 then
        match rest with
        | 97 :: 108 :: 115 :: 101 :: r => .ok r
        | _ => .error .badValue
      else if c = 110 then
        match rest with
        | 117 :: 108 :: 108 :: r => .ok r
        | _ => .error .badValue
      else
        match validateNumber s with
        | .error e => .error (.inNumber e)
        | .ok t => .ok t

/-- Model of the element loop of `validateArray` (validate.go). -/
def validateArrayLoopF : Nat → List Nat → Except Err (List Nat)
  | 0, _ => .error .outOfFuel
  | fuel + 1, s =>
    match validateValueF fuel (skipWS s) with
    | .error e => .error (.inArrayValue e)
    | .ok s2 =>
      match skipWS s2 with
      | [] => .error .endOfArray
      | d :: s3 =>
        if d = 44 then validateArrayLoopF fuel s3
        else if d = 93 then .ok s3
        else .error .missArrayComma

/-- Model of the entry loop of `validateObject` (validate.go). -/
def validateObjectLoopF : Nat → List Nat → Except Err (List Nat)
  | 0, _ => .error .outOfFuel
  | fuel + 1, s =>
    match skipWS s with
    | 34 :: s1 =>
      match validateString s1 with
      | .error e => .error (.inObjectKey e)
      | .ok s2 =>
        match skipWS s2 with
        | 58 :: s3 =>
          match validateValueF fuel (skipWS s3) with
          | .error e => .error (.inObjectValue e)
          | .ok s4 =>
            match skipWS s4 with
            | [] => .error .endOfObject
            | d :: s5 =>
              if d = 44 then validateObjectLoopF fuel s5
              else if d = 125 then .ok s5
              else .error .missObjectComma
        | _ => .error .missingColon
    | _ => .error .missingKeyQuote

end

/-- Model of `Validate` (validate.go): trim leading whitespace, run the strict
    grammar once, then require the remaining tail to be all whitespace. -/
def Validate (s : List Nat) : Except Err Unit :=
  let s1 := skipWS s
  match validateValueF (fuelFor s1) s1 with
  | .error e => .error (.cannotParse e)
  | .ok tail =>
    match skipWS tail with
    | [] => .ok ()
    | _ :: _ => .error .unexpectedTail

/-- Success test for `Validate`. -/
def validateOk (s : List Nat) : Bool :=
  match Validate s with
  | .ok _ => true
  | .error _ => false

mutual

/-- Encoding of the input set of spec property 1 (claim C6): inputs accepted
    by the strict validator that contain no whitespace outside string
    literals.  This is `validateValueF` with every `skipWS` removed, so a
    whitespace byte anywhere outside a string makes it fail; strings and
    numbers are checked by the same shared scanners. -/
def strictNoWSValueF : Nat → List Nat → Except Err (List Nat)
  | 0, _ => .error .outOfFuel
  | fuel + 1, s =>
    match s with
    | [] => .error .emptyInput
    | c :: rest =>
      if c = 123 then
        match
          (match rest with
           | [] => Except.error Err.missingCloseBrace
           | d :: rest1 =>
             if d = 125 then Except.ok rest1
             else strictNoWSObjectLoopF fuel (d :: rest1)) with
        | .error e => .error (.inObject e)
        | .ok t => .ok t
      else if c = 91 then
        match
          (match rest with
           | [] => Except.error Err.missingCloseBracket
           | d :: rest1 =>
             if d = 93 then Except.ok rest1
             else strictNoWSArrayLoopF fuel (d :: rest1)) with
        | .error e => .error (.inArray e)
        | .ok t => .ok t
      else if c = 34 then
        match validateString rest with
        | .error e => .error (.inString e)
        | .ok t => .ok t
      else if c = 116 then
        match rest with
        | 114 :: 117 :: 101 :: r => .ok r
        | _ => .error .badValue
      else if c = 102 then
        match rest with
        | 97 :: 108 :: 115 :: 101 :: r => .ok r
        | _ => .error .badValue
      else if c = 110 then
        match rest with
        | 117 :: 108 :: 108 :: r => .ok r
        | _ => .error .badValue
      else
        match validateNumber s with
        | .error e => .error (.inNumber e)
        | .ok t => .ok t

/-- Array-loop companion of `strictNoWSValueF`. -/
def strictNoWSArrayLoopF : Nat → List Nat → Except Err (List Nat)
  | 0, _ => .error .outOfFuel
  | fuel + 1, s =>
    match strictNoWSValueF fuel s with
    | .error e => .error (.inArrayValue e)
    | .ok s2 =>
      match s2 with
      | [] => .error .endOfArray
      | d :: s3 =>
        if d = 44 then strictNoWSArrayLoopF fuel s3
        else if d = 93 then .ok s3
        else .error .missArrayComma

/-- Object-loop companion of `strictNoWSValueF`. -/
def strictNoWSObjectLoopF : Nat → List Nat → Except Err (List Nat)
  | 0, _ => .error .outOfFuel
  | fuel + 1, s =>
    match s with
    | 34 :: s1 =>
      match validateString s1 with
      | .error e => .error (.inObjectKey e)
      | .ok s2 =>
        match s2 with
        | 58 :: s3 =>
          match strictNoWSValueF fuel s3 with
          | .error e => .error (.inObjectValue e)
          | .ok s4 =>
            match s4 with
            | [] => .error .endOfObject
            | d :: s5 =>
              if d = 44 then strictNoWSObjectLoopF fuel s5
              else if d = 125 then .ok s5
              else .error .missObjectComma
        | _ => .error .missingColon
    | _ => .error .missingKeyQuote

end

/-- Top-level acceptance by the strict grammar with no whitespace outside
    strings: one value consuming the entire input. -/
def strictNoWSAccept (s : List Nat) : Bool :=
  match strictNoWSValueF (fuelFor s) s with
  | .ok [] => true
  | _ => false

mutual

/-- Escape checker of `parseValidateRawString` (ValidateParser file) between
    escapes. -/
def pvEscCont : List Nat → Bool
  | [] => true
  | c :: rs => if c = 92 then pvEscAfter rs else pvEscCont rs

/-- Escape checker of `parseValidateRawString` directly after a backslash.
    Unlike validate.go, a trailing backslash is reported as an error (the
    BUG branch); `parseRawString` cannot produce such an interior. -/
def pvEscAfter : List Nat → Bool
  | [] => false
  | 117 :: a :: b :: c :: d :: rs4 => (hex4 a b c d).isSome && pvEscCont rs4
  | 117 :: _ => false
  | ch :: rs =>
    if ch = 34 || ch = 92 || ch = 47 || ch = 98 || ch = 102
        || ch = 110 || ch = 114 || ch = 116 then pvEscCont rs
    else false

end

/-- Model of `parseValidateRawString`: the raw scan of `parseRawString` plus
    escape validation; the escape-free fast path of the source returns the
    same interior and tail with a trivially passing escape check. -/
def parseValidateRawString (s : List Nat) : Except Err (List Nat × List Nat) :=
  match parseRawString s with
  | none => .error .missingQuote
  | some (rs, tail) => if pvEscCont rs then .ok (rs, tail) else .error .badString

/-- Model of `parseValidateRawKey`: escape-free fast path with fallback to
    `parseValidateRawString`, same semantics. -/
def parseValidateRawKey (s : List Nat) : Except Err (List Nat × List Nat) :=
  parseValidateRawString s

/-- Body of `parseValidateRawNumber` (ValidateParser file) after the
    optional minus: unlike `vnBody`, the redundant-leading-zero check comes
    before the digits-to-end early return; then the optional fraction and
    exponent follow.  The commented-out inf/nan support of the source is
    absent, so inf and nan are rejected here. -/
def pvrnBody (s1 : List Nat) : Except Err (List Nat) :=
  match s1 with
  | [] => .error .badNumber
  | _ :: _ =>
    let ds := s1.takeWhile isDigit
    if ds.length = 0 then .error .badNumber
    else if ds.head? = some 48 ∧ ds.length ≠ 1 then .error .badNumber
    else
      match s1.drop ds.length with
      | [] => .ok []
      | e :: r1 => vnFrac (e :: r1)

/-- Tail computation of `parseValidateRawNumber`: optional minus, then
    `pvrnBody`. -/
def pvrnTail : List Nat → Except Err (List Nat)
  | [] => .error .badNumber
  | c :: r => pvrnBody (if c = 45 then r else c :: r)

/-- Model of `parseValidateRawNumber`: the lexeme is the consumed prefix. -/
def parseValidateRawNumber (s : List Nat) : Except Err (List Nat × List Nat) :=
  match pvrnTail s with
  | .error e => .error e
  | .ok rest => .ok (s.take (s.length - rest.length), rest)

mutual

/-- Model of `parseValidateValue` (ValidateParser file): the permissive
    parser's shape (including the depth counter and the NaN literal branch)
    with strict string and number scanners and a control-character scan on
    string values. -/
def parseValidateValueF : Nat → List Nat → Nat → Except Err (Val × List Nat)
  | 0, _, _ => .error .outOfFuel
  | fuel + 1, s, depth =>
    match s with
    | [] => .error .emptyInput
    | c :: rest =>
      if MaxDepth < depth + 1 then .error .depthExceeded
      else if c = 123 then
        match
          (match skipWS rest with
           | [] => Except.error Err.missingCloseBrace
           | d :: rest1 =>
             if d = 125 then Except.ok (Val.obj [] false, rest1)
             else parseValidateObjectLoopF fuel [] (d :: rest1) (depth + 1)) with
        | .error e => .error (.inObject e)
        | .ok vt => .ok vt
      else if c = 91 then
        match
          (match skipWS rest with
           | [] => Except.error Err.missingCloseBracket
           | d :: rest1 =>
             if d = 93 then Except.ok (Val.arr [], rest1)
             else parseValidateArrayLoopF fuel [] (d :: rest1) (depth + 1)) with
        | .error e => .error (.inArray e)
        | .ok vt => .ok vt
      else if c = 34 then
        match parseValidateRawString rest with
        | .error e => .error (.inString e)
        | .ok (ss, tail) =>
          if ss.any (fun b => decide (b < 32)) then .error .controlChar
          else .ok (.rawstr ss, tail)
      else if c = 116 then
        match rest with
        | 114 :: 117 :: 101 :: r => .ok (.vtrue, r)
        | _ => .error .badValue
      else if c = 102 then
        match rest with
        | 97 :: 108 :: 115 :: 101 :: r => .ok (.vfalse, r)
        | _ => .error .badValue
      else if c = 110 then
        match rest with
        | 117 :: 108 :: 108 :: r => .ok (.vnull, r)
        | a1 :: a2 :: r2 =>
          if (a1 = 97 || a1 = 65) && (a2 = 110 || a2 = 78) then
            .ok (.num [110, a1, a2], r2)
          else .error .badValue
        | _ => .error .badValue
      else
        match parseValidateRawNumber s with
        | .error e => .error (.inNumber e)
        | .ok (ns, tail) => .ok (.num ns, tail)

/-- Model of the element loop of `parseValidateArray`. -/
def parseValidateArrayLoopF :
    Nat → List Val → List Nat → Nat → Except Err (Val × List Nat)
  | 0, _, _, _ => .error .outOfFuel
  | fuel + 1, acc, s, depth =>
    match parseValidateValueF fuel (skipWS s) depth with
    | .error e => .error (.inArrayValue e)
    | .ok (v, s2) =>
      match skipWS s2 with
      | [] => .error .endOfArray
      | d :: s3 =>
        if d = 44 then parseValidateArrayLoopF fuel (acc ++ [v]) s3 depth
        else if d = 93 then .ok (.arr (acc ++ [v]), s3)
        else .error .missArrayComma

/-- Model of the entry loop of `parseValidateObject`. -/
def parseValidateObjectLoopF :
    Nat → List (List Nat × Val) → List Nat → Nat → Except Err (Val × List Nat)
  | 0, _, _, _ => .error .outOfFuel
  | fuel + 1, acc, s, depth =>
    match skipWS s with
    | 34 :: s1 =>
      match parseValidateRawKey s1 with
      | .error e => .error (.inObjectKey e)
      | .ok (k, s2) =>
        match skipWS s2 with
        | 58 :: s3 =>
          match parseValidateValueF fuel (skipWS s3) depth with
          | .error e => .error (.inObjectValue e)
          | .ok (v, s4) =>
            match skipWS s4 with
            | [] => .error .endOfObject
            | d :: s5 =>
              if d = 44 then parseValidateObjectLoopF fuel (acc ++ [(k, v)]) s5 depth
              else if d = 125 then .ok (.obj (acc ++ [(k, v)]) false, s5)
              else .error .missObjectComma
        | _ => .error .missingColon
    | _ => .error .missingKeyQuote

end

/-- Model of `ValidateParser.Parse`. -/
def validateParserParse (s : List Nat) : Except Err Val :=
  let s1 := skipWS s
  match parseValidateValueF (fuelFor s1) s1 0 with
  | .error e => .error (.cannotParse e)
  | .ok (v, tail) =>
    match skipWS tail with
    | [] => .ok v
    | _ :: _ => .error .unexpectedTail

/-- Key unescape pass of `Object.unescapeKeys` (parser.go), applied to every
    entry. -/
def unescapeKeysL (kvs : List (List Nat × Val)) : List (List Nat × Val) :=
  kvs.map (fun kv => (unescapeStringBestEffort kv.1, kv.2))

/-- Model of `Object.unescapeKeys`: a no-op once the flag is set, otherwise
    unescape every key and set the flag. -/
def objUnescapeKeys (kvs : List (List Nat × Val)) (ku : Bool) :
    List (List Nat × Val) × Bool :=
  if ku then (kvs, ku) else (unescapeKeysL kvs, true)

/-- First entry with the given key, in insertion order (the linear search of
    both loops in `Object.Get`). -/
def findKV (kvs : List (List Nat × Val)) (k : List Nat) : Option Val :=
  match kvs with
  | [] => none
  | (k0, v) :: rest => if k0 = k then some v else findKV rest k

/-- Model of `Object.Get` (parser.go), with the state of the object threaded
    explicitly since the slow path mutates it: when keys are not yet
    unescaped and the lookup key contains no backslash, the fast path
    compares the still-escaped keys and returns without mutation on a hit;
    otherwise the keys are unescaped (and cached) and searched again. -/
def objectGet (kvs : List (List Nat × Val)) (ku : Bool) (key : List Nat) :
    Option Val × (List (List Nat × Val) × Bool) :=
  if !ku && !key.contains 92 then
    match findKV kvs key with
    | some v => (some v, (kvs, ku))
    | none =>
      let p := objUnescapeKeys kvs ku
      (findKV p.1 key, p)
  else
    let p := objUnescapeKeys kvs ku
    (findKV p.1 key, p)

/-- Model of `Object.Visit` order combined with a key filter: `Visit`
    unescapes the keys and then enumerates entries in insertion order, so the
    first entry in `Visit` order whose key equals `k` is the first match in
    the unescaped list. -/
def firstVisitMatch (kvs : List (List Nat × Val)) (ku : Bool) (k : List Nat) :
    Option Val :=
  findKV (objUnescapeKeys kvs ku).1 k

/-- Model of `strconv.Atoi` (Go standard library, not part of this
    repository): an optional sign followed by at least one decimal digit and
    nothing else.  The 64-bit overflow failure of `Atoi` is not modelled;
    an overflowing index is larger than any list length in every use here,
    produced and rejected alike. -/
def atoi? (s : List Nat) : Option Int :=
  let p : Bool × List Nat :=
    match s with
    | 45 :: r => (true, r)
    | 43 :: r => (false, r)
    | _ => (false, s)
  match p.2 with
  | [] => none
  | _ :: _ =>
    if p.2.all isDigit then
      let n : Nat := p.2.foldl (fun acc c => acc * 10 + (c - 48)) 0
      some (if p.1 then -(n : Int) else (n : Int))
    else none

/-- Model of `Value.Get` (parser.go): walk the keys, looking each up in an
    object (via `Object.Get`) or parsing it as an array index.  `Object.Get`
    may cache unescaped keys inside the tree; that mutation never changes
    the returned subvalue, so the walk is modelled on the unchanged tree. -/
def valueGet : Option Val → List (List Nat) → Option Val
  | none, _ => none
  | some v, [] => some v
  | some v, key :: rest =>
    match v with
    | .obj kvs ku =>
      match (objectGet kvs ku key).1 with
      | none => none
      | some v2 => valueGet (some v2) rest
    | .arr elems =>
      match atoi? key with
      | none => none
      | some n =>
        if n < 0 ∨ (elems.length : Int) ≤ n then none
        else valueGet elems[n.toNat]? rest
    | _ => none

/-- Model of `Value.Exists`: the keys path resolves to a non-nil value. -/
def valueExists (v : Option Val) (keys : List (List Nat)) : Bool :=
  (valueGet v keys).isSome

/-- One step of a `Path` (path.go): an object key or an array index. -/
inductive PathStep where
  | key (k : List Nat)
  | idx (i : Int)

/-- Model of `Value.GetP` (path.go).  Note the empty path returns nil. -/
def getP : Option Val → List PathStep → Option Val
  | none, _ => none
  | some _, [] => none
  | some v, step :: rest =>
    match v with
    | .obj kvs ku =>
      match step with
      | .key k =>
        match rest with
        | [] => (objectGet kvs ku k).1
        | _ :: _ =>
          match (objectGet kvs ku k).1 with
          | none => none
          | some child => getP (some child) rest
      | .idx _ => none
    | .arr elems =>
      match step with
      | .idx i =>
        if i < 0 ∨ (elems.length : Int) ≤ i then none
        else
          match rest with
          | [] => elems[i.toNat]?
          | _ :: _ =>
            match elems[i.toNat]? with
            | none => none
            | some child => getP (some child) rest
      | .key _ => none
    | _ => none

/-- Model of `Value.Type` (parser.go): promotes `typeRawString` to
    `TypeString` by running the best-effort unescape once; every other
    variant, numbers included, is returned unchanged. -/
def typeOf : Val → GoType × Val
  | .rawstr s => (.tString, .str (unescapeStringBestEffort s))
  | .str s => (.tString, .str s)
  | .num s => (.tNumber, .num s)
  | .vnull => (.tNull, .vnull)
  | .vtrue => (.tTrue, .vtrue)
  | .vfalse => (.tFalse, .vfalse)
  | .obj kvs ku => (.tObject, .obj kvs ku)
  | .arr a => (.tArray, .arr a)

/-- Specification-side definition for claim C4, written from the spec text:
    the RFC 7159 integer part, either a single 0 or a nonzero digit followed
    by digits (no redundant leading zero). -/
def rfcInt : List Nat → Option (List Nat)
  | [] => none
  | c :: r =>
    if c = 48 then some r
    else if 49 ≤ c ∧ c ≤ 57 then some (r.dropWhile isDigit)
    else none

/-- Specification-side optional fraction: a dot with at least one digit, or
    nothing. -/
def rfcFrac : List Nat → Option (List Nat)
  | [] => some []
  | c :: r =>
    if c = 46 then
      match r.takeWhile isDigit with
      | [] => none
      | _ :: _ => some (r.dropWhile isDigit)
    else some (c :: r)

/-- Specification-side optional exponent: e or E, an optional sign, and at
    least one digit, or nothing. -/
def rfcExp : List Nat → Option (List Nat)
  | [] => some []
  | c :: r =>
    if c = 101 ∨ c = 69 then
      match r with
      | [] => none
      | d :: r3 =>
        let r4 := if d = 45 ∨ d = 43 then r3 else d :: r3
        match r4.takeWhile isDigit with
        | [] => none
        | _ :: _ => some (r4.dropWhile isDigit)
    else some (c :: r)

/-- Specification-side RFC number body after the optional minus. -/
def rfcNumBody (s1 : List Nat) : Bool :=
  match rfcInt s1 with
  | none => false
  | some r1 =>
    match rfcFrac r1 with
    | none => false
    | some r2 =>
      match rfcExp r2 with
      | none => false
      | some r3 => r3.isEmpty

/-- Specification-side RFC 7159 number with optional leading minus,
    consuming the whole input. -/
def rfcNumber : List Nat → Bool
  | [] => false
  | c :: r => rfcNumBody (if c = 45 then r else c :: r)

/-- An optional minus followed by one or more digits: the extra shapes that
    `validateNumber` accepts beyond RFC 7159 thanks to its early return
    before the leading-zero check. -/
def allDigitsOptMinus : List Nat → Bool
  | [] => false
  | c :: r =>
    let s1 := if c = 45 then r else c :: r
    !s1.isEmpty && s1.all isDigit

/-- A tail that cannot extend a number lexeme: empty or headed by a byte
    outside the permissive number-character class. -/
def goodTail (t : List Nat) : Bool :=
  match t with
  | [] => true
  | c :: _ => !isNumChar c

/-- Byte rendering of the array-loop suffix: the comma-separated marshalled
    elements followed by the closing bracket. -/
def arrTail : List Val → List Nat
  | [] => [93]
  | [v] => marshal v ++ [93]
  | v :: vs => marshal v ++ 44 :: arrTail vs

/-- Byte rendering of the object-loop suffix: the comma-separated entries
    with verbatim quoted keys followed by the closing brace. -/
def objTail : List (List Nat × Val) → List Nat
  | [] => [125]
  | [(k, v)] => 34 :: k ++ 34 :: 58 :: marshal v ++ [125]
  | (k, v) :: rest => 34 :: k ++ 34 :: 58 :: marshal v ++ 44 :: objTail rest


/-- C1: for the permissive parser, a document nested exactly 300 levels deep
    parses successfully, while one nested 301 levels deep fails with the
    depth-exceeded error; the depth counter is incremented on every
    `parseValue` entry against the bound `MaxDepth = 300`. -/
theorem c1_depth_boundary :
    MaxDepth = 300 ∧
    parseOk (nestedArrays 300) = true ∧
    parseOk (nestedArrays 301) = false ∧
    parseDepthErr (nestedArrays 301) = true :=
  ⟨rfl, by decide, by decide, by decide⟩

/-- C2 counterexample: the claim says every input nested deeper than 300
    levels makes `Validate` fail with a depth-exceeded error, but
    validate.go has no depth counter: an input nested 301 deep is accepted
    by `Validate`. -/
theorem c2_counterexample : validateOk (nestedArrays 301) = true := by decide

/-- C2 amended: the standalone strict validator enforces no depth limit
    (`validateValue` in validate.go carries no depth counter): an input
    nested 301 deep passes `Validate`, while the permissive parser and the
    depth-checked `ValidateParser.Parse` both reject it with the
    depth-exceeded error. -/
theorem c2_amended :
    validateOk (nestedArrays 301) = true ∧
    parseDepthErr (nestedArrays 301) = true ∧
    isDepthResult (validateParserParse (nestedArrays 301)) = true :=
  ⟨by decide, by decide, by decide⟩

/-- C3 counterexample: an input nested 301 deep is accepted by the strict
    validator (which has no depth limit) but rejected by the permissive
    parser, so the permissive parser's language does not include the strict
    validator's. -/
theorem c3_counterexample :
    validateOk (nestedArrays 301) = true ∧ parseOk (nestedArrays 301) = false :=
  ⟨by decide, by decide⟩

/-- C6 counterexample: an input nested 301 deep contains no whitespace and is
    accepted by the strict validator, but the permissive parse fails on it,
    so parse-then-marshal cannot reproduce it. -/
theorem c6_counterexample :
    strictNoWSAccept (nestedArrays 301) = true ∧
    validateOk (nestedArrays 301) = true ∧
    parseOk (nestedArrays 301) = false :=
  ⟨by decide, by decide, by decide⟩

/-- C9 counterexample: the claim says number leaves are held in a raw
    transitional variant and promoted (with a cached float) on first typed
    access, but the parser emits the final `TypeNumber` variant directly and
    `Value.Type` returns a number unchanged: there is no raw number state
    and no number cache in parser.go's `Value`. -/
theorem c9_counterexample :
    parse [55] = .ok (.num [55]) ∧
    typeOf (.num [55]) = (.tNumber, .num [55]) :=
  ⟨rfl, rfl⟩

/-- C9 amended: the permissive parser stores a number leaf directly in the
    user-facing Number variant holding the raw lexeme; `Value.Type` leaves
    numbers (and every non-raw-string variant) unchanged and promotes only
    `RawString` to `String` via the best-effort unescape; parser.go's
    `Value` has no cached-float slot, so numeric getters re-decode the
    lexeme on every call. -/
theorem c9_amended :
    (∀ lex : List Nat, typeOf (.num lex) = (.tNumber, .num lex)) ∧
    (∀ lex : List Nat, typeOf (.rawstr lex) = (.tString, .str (unescapeStringBestEffort lex))) ∧
    parse [55] = .ok (.num [55]) :=
  ⟨fun _ => rfl, fun _ => rfl, rfl⟩

/-- C10: the variadic navigator `Value.Get` with zero keys returns the value
    itself and `Value.Exists` with zero keys returns true, while the
    path-based `Value.GetP` returns nil on the empty path. -/
theorem c10_empty_path (v : Val) :
    valueGet (some v) [] = some v ∧
    valueExists (some v) [] = true ∧
    getP (some v) [] = none :=
  ⟨rfl, rfl, rfl⟩


/-- Best-effort unescape is the identity on byte strings without a
    backslash (the fast path of `unescapeStringBestEffort`). -/
theorem unescapeCont_no_backslash (s : List Nat) (h : s.contains 92 = false) :
    unescapeCont s = s := by
  induction s with
  | nil => simp [unescapeCont]
  | cons c rest ih =>
    have h2 := h
    simp only [List.contains_cons, Bool.or_eq_false_iff, beq_eq_false_iff_ne] at h2
    have hc : c ≠ 92 := fun hc => h2.1 hc.symm
    simp [unescapeCont, hc, ih h2.2]

/-- Key unescaping is the identity when no key contains a backslash. -/
theorem unescapeKeysL_id (kvs : List (List Nat × Val))
    (h : ∀ kv ∈ kvs, kv.1.contains 92 = false) : unescapeKeysL kvs = kvs := by
  induction kvs with
  | nil => rfl
  | cons kv rest ih =>
    have hk : unescapeStringBestEffort kv.1 = kv.1 :=
      unescapeCont_no_backslash kv.1 (h kv (by simp))
    simp only [unescapeKeysL, List.map_cons] at *
    refine congrArg₂ List.cons ?_ (ih (fun x hx => h x (by simp [hx])))
    cases kv with
    | mk k v => simpa [unescapeStringBestEffort] using congrArg (fun z => (z, v)) hk

/-- C5 counterexample: in the object parsed from an input whose first key is
    the escaped spelling of the second key, the escape-free lookup key hits
    the fast path of `Object.Get`, which compares still-escaped keys and
    returns the second entry, while the first entry in `Visit` order with
    that (unescaped) key is the first one.  The input is the bytes of the
    document with entries a-backslash-u0062 mapsto 1 and ab mapsto 2, and
    the lookup key is ab. -/
theorem c5_counterexample :
    parse [123, 34, 97, 92, 117, 48, 48, 54, 50, 34, 58, 49, 44,
           34, 97, 98, 34, 58, 50, 125] =
      .ok (.obj [([97, 92, 117, 48, 48, 54, 50], .num [49]),
                 ([97, 98], .num [50])] false) ∧
    (objectGet [([97, 92, 117, 48, 48, 54, 50], .num [49]),
                ([97, 98], .num [50])] false [97, 98]).1 = some (.num [50]) ∧
    firstVisitMatch [([97, 92, 117, 48, 48, 54, 50], .num [49]),
                     ([97, 98], .num [50])] false [97, 98] = some (.num [49]) ∧
    Val.num [50] ≠ Val.num [49] := by
  refine ⟨rfl, rfl, ?_, by simp⟩
  simp [firstVisitMatch, objUnescapeKeys, unescapeKeysL, unescapeStringBestEffort,
    unescapeCont, unescapeLoop, hex4, hexVal, isSurrogate, utf8Encode, findKV]

/-- C5 amended: `Object.Get` is idempotent for every object state and lookup
    key; and whenever no key of the object contains a backslash, `Object.Get`
    returns the first entry in `Visit` (insertion) order whose key equals the
    lookup key.  Without that restriction the escaped-key fast path may
    return a later entry whose raw spelling matches, as the counterexample
    shows. -/
theorem c5_amended :
    (∀ (kvs : List (List Nat × Val)) (ku : Bool) (k : List Nat),
      (objectGet kvs ku k).1 =
        (objectGet (objectGet kvs ku k).2.1 (objectGet kvs ku k).2.2 k).1) ∧
    (∀ (kvs : List (List Nat × Val)) (ku : Bool) (k : List Nat),
      (∀ kv ∈ kvs, kv.1.contains 92 = false) →
      (objectGet kvs ku k).1 = firstVisitMatch kvs ku k) := by
  constructor
  · intro kvs ku k
    cases ku with
    | true => simp [objectGet, objUnescapeKeys]
    | false =>
      by_cases hk : 92 ∈ k
      · simp [objectGet, objUnescapeKeys, hk]
      · cases hf : findKV kvs k with
        | some v => simp [objectGet, objUnescapeKeys, hk, hf]
        | none => simp [objectGet, objUnescapeKeys, hk, hf]
  · intro kvs ku k h
    have hu : unescapeKeysL kvs = kvs := unescapeKeysL_id kvs h
    cases ku with
    | true => simp [objectGet, objUnescapeKeys, firstVisitMatch]
    | false =>
      by_cases hk : 92 ∈ k
      · simp [objectGet, objUnescapeKeys, firstVisitMatch, hk, hu]
      · cases hf : findKV kvs k with
        | some v => simp [objectGet, objUnescapeKeys, firstVisitMatch, hk, hf, hu]
        | none => simp [objectGet, objUnescapeKeys, firstVisitMatch, hk, hf, hu]

/-- C5 amended, witness: the amended statement applied to the concrete
    one-entry object with key a and lookup key a. -/
theorem c5_amended_witness :
    (objectGet [([97], Val.num [49])] false [97]).1 =
      firstVisitMatch [([97], Val.num [49])] false [97] :=
  c5_amended.2 [([97], .num [49])] false [97]
    (by intro kv hkv; simp at hkv; subst hkv; decide)


/-- Oring a shifted value with a small value is addition (disjoint bits). -/
theorem pow_mul_lor_eq_add :
    ∀ (k a b : Nat), b < 2 ^ k → (2 ^ k * a) ||| b = 2 ^ k * a + b := by
  intro k
  induction k with
  | zero =>
    intro a b hb
    interval_cases b
    simp
  | succ k ih =>
    intro a b hb
    have h2 : 2 ^ (k + 1) * a = Nat.bit false (2 ^ k * a) := by
      simp [Nat.bit_val]
      ring
    have hbit : Nat.bit (Nat.bodd b) (Nat.div2 b) = b := Nat.bit_decomp b
    rw [h2, ← hbit, Nat.lor_bit]
    have hdb : Nat.div2 b < 2 ^ k := by
      have h3 := Nat.bodd_add_div2 b
      have : 2 ^ (k + 1) = 2 * 2 ^ k := by ring
      omega
    rw [ih a (Nat.div2 b) hdb]
    have h3 := Nat.bodd_add_div2 b
    simp [Nat.bit_val]
    cases hBo : Nat.bodd b <;> simp [hBo] at h3 ⊢ <;> ring_nf <;> omega

/-- Length bound for the UTF-8 encoder: at most four bytes. -/
theorem utf8Encode_length_le (x : Nat) : (utf8Encode x).length ≤ 4 := by
  simp only [utf8Encode]
  repeat' split
  all_goals simp

/-- Every escape consumes at least as many source bytes as it emits, so the
    decoded output of `unescapeStringBestEffort` never exceeds the input in
    length (the in-place write of the Go decoder stays behind the read
    cursor).  Proven simultaneously with the corresponding bound for the
    after-backslash state, which may emit one extra byte relative to the
    remaining input because the backslash itself was already consumed. -/
theorem unescapeCont_length_le :
    ∀ s : List Nat, (unescapeCont s).length ≤ s.length := by
  have main :=
    unescapeCont.induct
      (fun s => (unescapeCont s).length ≤ s.length)
      (fun s => (unescapeLoop s).length ≤ s.length + 1)
  apply main
  · simp [unescapeCont]
  · intro rest h
    simpa [unescapeCont] using h
  · intro c rest hc h
    simp only [unescapeCont, if_neg hc, List.length_cons]
    omega
  · simp [unescapeLoop]
  · intro rest h
    simp only [unescapeLoop, List.length_cons]
    omega
  · intro rest h
    simp only [unescapeLoop, List.length_cons]
    omega
  · intro rest h
    simp only [unescapeLoop, List.length_cons]
    omega
  · intro rest h
    simp only [unescapeLoop, List.length_cons]
    omega
  · intro rest h
    simp only [unescapeLoop, List.length_cons]
    omega
  · intro rest h
    simp only [unescapeLoop, List.length_cons]
    omega
  · intro rest h
    simp only [unescapeLoop, List.length_cons]
    omega
  · intro rest h
    simp only [unescapeLoop, List.length_cons]
    omega
  · intro a b c d e f g h9 rest6 hx ih
    simp only [unescapeLoop, hx, List.length_cons]
    simp only [List.length_cons] at ih
    omega
  · intro a b c d e f g h9 rest6 x hx hs y hy ih
    simp only [unescapeLoop, hx, hs, hy, if_pos, List.length_cons, List.length_append]
    have hu := utf8Encode_length_le (decodeRune x y)
    omega
  · intro a b c d e f g h9 rest6 x hx hs hy ih
    simp only [unescapeLoop, hx, hs, hy, if_pos, List.length_cons]
    simp only [List.length_cons] at ih
    omega
  · intro a b c d e f g h9 rest6 x hx hs ih
    simp only [unescapeLoop, hx, if_neg hs, List.length_cons, List.length_append]
    simp only [List.length_cons] at ih
    have hu := utf8Encode_length_le x
    omega
  · intro a b c d rest4 hne hx ih
    simp only [unescapeLoop, hx, hne, List.length_cons]
    simp only [List.length_cons] at ih
    omega
  · intro a b c d rest4 hne x hx hs ih
    simp only [unescapeLoop, hne, hx, hs, if_pos, List.length_cons]
    omega
  · intro a b c d rest4 hne x hx hs ih
    simp only [unescapeLoop, hne, hx, if_neg hs, List.length_cons, List.length_append]
    have hu := utf8Encode_length_le x
    omega
  · intro rest hne1 hne2 ih
    simp only [unescapeLoop, hne1, hne2, List.length_cons]
    omega
  · intro ch rest h34 h92 h47 h98 h102 h110 h114 h116 hne1 hne2 h117 ih
    simp only [unescapeLoop, h34, h92, h47, h98, h102, h110, h114, h116, hne1, hne2,
      h117, List.length_cons]
    omega


/-- C8: the best-effort escape decoder's output never exceeds the input in
    length: every recognized or malformed escape consumes at least as many
    source bytes as it emits, so the in-place decode into the parser's
    working buffer never writes past bytes it has not yet read. -/
theorem c8_unescape_length (s : List Nat) :
    (unescapeStringBestEffort s).length ≤ s.length :=
  unescapeCont_length_le s

/-- Valid surrogate pairs combine to the supplementary code point. -/
theorem decodeRune_pair (x y : Nat) (h1 : 0xD800 ≤ x) (h2 : x < 0xDC00)
    (h3 : 0xDC00 ≤ y) (h4 : y < 0xE000) :
    decodeRune x y = 0x10000 + (x - 0xD800) * 1024 + (y - 0xDC00) := by
  have hb : y - 0xDC00 < 2 ^ 10 := by omega
  have hsh : (x - 0xD800) <<< 10 = 2 ^ 10 * (x - 0xD800) := by
    rw [Nat.shiftLeft_eq]; ring
  rw [decodeRune, if_pos (by
    simp only [Bool.and_eq_true, decide_eq_true_eq]
    exact ⟨⟨⟨h1, h2⟩, h3⟩, h4⟩)]
  rw [hsh, pow_mul_lor_eq_add 10 _ _ hb]
  omega

/-- Anything except a valid surrogate pair decodes to U+FFFD. -/
theorem decodeRune_mismatch (x y : Nat)
    (h : ¬(0xD800 ≤ x ∧ x < 0xDC00 ∧ 0xDC00 ≤ y ∧ y < 0xE000)) :
    decodeRune x y = 0xFFFD := by
  rw [decodeRune, if_neg (by
    simp only [Bool.and_eq_true, decide_eq_true_eq]
    intro hcon
    exact h ⟨hcon.1.1.1, hcon.1.1.2, hcon.1.2, hcon.2⟩)]

/-- C7 counterexample: a high surrogate escape followed by a syntactically
    valid non-surrogate escape (here backslash-uD800 then backslash-u0041)
    decodes to the single replacement character U+FFFD and swallows both
    escapes, rather than producing the raw UTF-16 code unit of the lone
    surrogate (neither its WTF-8 bytes followed by A, nor the verbatim
    escape text followed by A). -/
theorem c7_counterexample :
    unescapeStringBestEffort [92, 117, 68, 56, 48, 48, 92, 117, 48, 48, 52, 49] =
      [239, 191, 189] ∧
    ([239, 191, 189] : List Nat) ≠ [237, 160, 128, 65] ∧
    ([239, 191, 189] : List Nat) ≠ [92, 117, 68, 56, 48, 48, 65] := by
  refine ⟨?_, by decide, by decide⟩
  simp only [unescapeStringBestEffort, unescapeCont, unescapeLoop, hex4, hexVal,
    isSurrogate, decodeRune, utf8Encode]
  decide

/-- C7 amended: a `u` escape holding a surrogate that is immediately followed
    by another syntactically valid `u` escape consumes both and emits
    `utf8Encode (decodeRune x y)`: the combined code point for a valid
    high-low pair, and U+FFFD for a mismatched pair.  A surrogate escape not
    followed by a valid `u` escape keeps its original six escape bytes
    verbatim (not a decoded code unit).  The last conjunct decodes the
    canonical pair D83E/DD2D to the four UTF-8 bytes of U+1F92D. -/
theorem c7_amended :
    (∀ (a b c d e f g h x y : Nat) (rest : List Nat),
      hex4 a b c d = some x → isSurrogate x = true → hex4 e f g h = some y →
      unescapeLoop (117 :: a :: b :: c :: d :: 92 :: 117 :: e :: f :: g :: h :: rest) =
        utf8Encode (decodeRune x y) ++ unescapeCont rest) ∧
    (∀ x y : Nat, 0xD800 ≤ x → x < 0xDC00 → 0xDC00 ≤ y → y < 0xE000 →
      decodeRune x y = 0x10000 + (x - 0xD800) * 1024 + (y - 0xDC00)) ∧
    (∀ x y : Nat, ¬(0xD800 ≤ x ∧ x < 0xDC00 ∧ 0xDC00 ≤ y ∧ y < 0xE000) →
      decodeRune x y = 0xFFFD) ∧
    (∀ a b c d x : Nat, hex4 a b c d = some x → isSurrogate x = true →
      unescapeLoop [117, a, b, c, d] = [92, 117, a, b, c, d]) ∧
    (∀ (a b c d x ch : Nat) (rest : List Nat),
      hex4 a b c d = some x → isSurrogate x = true → ch ≠ 92 →
      unescapeLoop (117 :: a :: b :: c :: d :: ch :: rest) =
        92 :: 117 :: a :: b :: c :: d :: unescapeCont (ch :: rest)) ∧
    unescapeStringBestEffort [92, 117, 68, 56, 51, 69, 92, 117, 68, 68, 50, 68] =
      [240, 159, 164, 173] := by
  refine ⟨?_, decodeRune_pair, decodeRune_mismatch, ?_, ?_, ?_⟩
  · intro a b c d e f g h x y rest hx hs hy
    simp only [unescapeLoop, hx, hs, hy, if_pos]
  · intro a b c d x hx hs
    simp only [unescapeLoop, hx, hs, if_pos, unescapeCont]
  · intro a b c d x ch rest hx hs hch
    have hne : ∀ (e f g h : Nat) (rest6 : List Nat),
        ch :: rest = 92 :: 117 :: e :: f :: g :: h :: rest6 → False := by
      intro e f g h r6 heq
      injection heq with heq1 _
      exact hch heq1
    simp only [unescapeLoop, hx, hs, hne, if_pos]
  · simp only [unescapeStringBestEffort, unescapeCont, unescapeLoop, hex4, hexVal,
      isSurrogate, decodeRune, utf8Encode]
    decide

/-- C7 amended, witness: the general pair rule applied to the escape pair
    D83E (a high surrogate) and DD2D (a low surrogate). -/
theorem c7_amended_witness :
    unescapeLoop [117, 68, 56, 51, 69, 92, 117, 68, 68, 50, 68] =
      utf8Encode (decodeRune 0xD83E 0xDD2D) ++ unescapeCont [] :=
  c7_amended.1 68 56 51 69 68 68 50 68 0xD83E 0xDD2D []
    (by decide) (by decide) (by decide)


/-- Dropping as many elements as the takeWhile prefix is dropWhile. -/
theorem drop_length_takeWhile (p : Nat → Bool) (l : List Nat) :
    l.drop (l.takeWhile p).length = l.dropWhile p := by
  induction l with
  | nil => rfl
  | cons c r ih =>
    by_cases h : p c <;> simp [List.takeWhile_cons, List.dropWhile_cons, h, ih]


/-- The exponent checker of validate.go (also used by the ValidateParser
    number scanner) agrees with the spec-side RFC exponent grammar, tail for
    tail. -/
theorem exp_agree (r t : List Nat) : vnExp r = .ok t ↔ rfcExp r = some t := by
  cases r with
  | nil => simp [vnExp, rfcExp]
  | cons c r2 =>
    by_cases hc : c = 101 ∨ c = 69
    · have hcb : (c = 101 || c = 69) = true := by
        rcases hc with h | h <;> simp [h]
      cases r2 with
      | nil => simp [vnExp, rfcExp, hc, hcb]
      | cons d r3 =>
        by_cases hd : d = 45 ∨ d = 43
        · have hdb : (d = 45 || d = 43) = true := by
            rcases hd with h | h <;> simp [h]
          cases r3 with
          | nil => simp [vnExp, rfcExp, hc, hcb, hd, hdb]
          | cons x xs =>
            by_cases hx : isDigit x
            · simp [vnExp, rfcExp, hc, hcb, hd, hdb, List.takeWhile_cons, hx,
                drop_length_takeWhile, List.dropWhile_cons]
            · simp [vnExp, rfcExp, hc, hcb, hd, hdb, List.takeWhile_cons, hx,
                List.dropWhile_cons]
        · have hdb : (d = 45 || d = 43) = false := by
            simp only [Bool.or_eq_false_iff, decide_eq_false_iff_not]
            exact ⟨fun h => hd (Or.inl h), fun h => hd (Or.inr h)⟩
          by_cases hx : isDigit d
          · simp [vnExp, rfcExp, hc, hcb, hd, hdb, List.takeWhile_cons, hx,
              drop_length_takeWhile, List.dropWhile_cons]
          · simp [vnExp, rfcExp, hc, hcb, hd, hdb, List.takeWhile_cons, hx,
              List.dropWhile_cons]
    · have hcb : (c = 101 || c = 69) = false := by
        simp only [Bool.or_eq_false_iff, decide_eq_false_iff_not]
        exact ⟨fun h => hc (Or.inl h), fun h => hc (Or.inr h)⟩
      simp [vnExp, rfcExp, hcb, hc]


/-- The fraction-then-exponent checker of validate.go agrees with the
    spec-side RFC fraction and exponent grammar. -/
theorem frac_agree (r t : List Nat) :
    vnFrac r = .ok t ↔ ∃ r2, rfcFrac r = some r2 ∧ rfcExp r2 = some t := by
  cases r with
  | nil => simpa [vnFrac, rfcFrac] using exp_agree [] t
  | cons c r2 =>
    rcases eq_or_ne c 46 with rfl | hc
    · cases r2 with
      | nil => simp [vnFrac, rfcFrac]
      | cons x xs =>
        by_cases hx : isDigit x
        · simp only [vnFrac, rfcFrac, List.takeWhile_cons, hx, if_true,
            List.dropWhile_cons, List.length_cons, List.drop_succ_cons]
          rw [drop_length_takeWhile]
          cases hdw : xs.dropWhile isDigit with
          | nil => simp [rfcExp, eq_comm]
          | cons e r3 => simpa using exp_agree (e :: r3) t
        · simp [vnFrac, rfcFrac, List.takeWhile_cons, hx]
    · simp only [vnFrac, rfcFrac, if_neg hc]
      simpa using exp_agree (c :: r2) t


/-- Whole-input success of the fraction-exponent continuation equals the
    spec-side fraction-exponent acceptance. -/
theorem contAgree (r : List Nat) :
    vnFrac r = .ok [] ↔
      (match rfcFrac r with
       | none => false
       | some r2 =>
         match rfcExp r2 with
         | none => false
         | some r3 => r3.isEmpty) = true := by
  rw [frac_agree r []]
  cases hf : rfcFrac r with
  | none => simp
  | some r2 =>
    cases he : rfcExp r2 with
    | none => simp [he]
    | some r3 => simp [he, List.isEmpty_iff]

/-- The ValidateParser number body accepts a whole input exactly when it is
    an RFC 7159 number body (no minus handled here). -/
theorem pvrnBody_agree (s1 : List Nat) :
    pvrnBody s1 = .ok [] ↔ rfcNumBody s1 = true := by
  cases s1 with
  | nil => simp [pvrnBody, rfcNumBody, rfcInt]
  | cons x xs =>
    by_cases hx : isDigit x
    · rcases eq_or_ne x 48 with rfl | h48
      · cases xs with
        | nil =>
          simp [pvrnBody, rfcNumBody, rfcInt, rfcFrac, rfcExp, List.takeWhile_cons, hx]
        | cons y ys =>
          by_cases hy : isDigit y
          · have h46 : y ≠ 46 := by simp [isDigit] at hy; omega
            have hyE : ¬(y = 101 ∨ y = 69) := by simp [isDigit] at hy; omega
            simp [pvrnBody, rfcNumBody, rfcInt, rfcFrac, rfcExp,
              List.takeWhile_cons, hx, hy, h46, hyE]
          · have hred : pvrnBody (48 :: y :: ys) = vnFrac (y :: ys) := by
              simp [pvrnBody, List.takeWhile_cons, hx, hy]
            have hred2 : rfcNumBody (48 :: y :: ys) =
                (match rfcFrac (y :: ys) with
                 | none => false
                 | some r2 =>
                   match rfcExp r2 with
                   | none => false
                   | some r3 => r3.isEmpty) := by
              simp [rfcNumBody, rfcInt]
            rw [hred, hred2]
            exact contAgree (y :: ys)
      · have h19 : 49 ≤ x ∧ x ≤ 57 := by
          simp [isDigit] at hx
          omega
        have hzero : ¬((x :: xs.takeWhile isDigit).head? = some 48 ∧
            (x :: xs.takeWhile isDigit).length ≠ 1) := by
          simp
          intro h
          exact absurd h h48
        have hred : pvrnBody (x :: xs) =
            (match xs.dropWhile isDigit with
             | [] => Except.ok []
             | e :: r1 => vnFrac (e :: r1)) := by
          simp [pvrnBody, List.takeWhile_cons, hx, hzero, h48, List.drop_succ_cons,
            drop_length_takeWhile]
        have hred2 : rfcNumBody (x :: xs) =
            (match rfcFrac (xs.dropWhile isDigit) with
             | none => false
             | some r2 =>
               match rfcExp r2 with
               | none => false
               | some r3 => r3.isEmpty) := by
          simp [rfcNumBody, rfcInt, h48, h19]
        rw [hred, hred2]
        cases hdw : xs.dropWhile isDigit with
        | nil => simp [rfcFrac, rfcExp]
        | cons e r1 => exact contAgree (e :: r1)
    · have h48 : x ≠ 48 := by
        simp [isDigit] at hx
        omega
      have h19 : ¬(49 ≤ x ∧ x ≤ 57) := by
        simp [isDigit] at hx
        omega
      simp [pvrnBody, rfcNumBody, rfcInt, List.takeWhile_cons, hx, h48, h19]


/-- The validate.go number body equals the ValidateParser number body except
    on an all-digit input, where its early return accepts before the
    leading-zero check. -/
theorem vnBody_eq (s1 : List Nat) :
    vnBody s1 = if (!s1.isEmpty && s1.all isDigit) = true then .ok [] else pvrnBody s1 := by
  cases s1 with
  | nil => simp [vnBody, pvrnBody]
  | cons x xs =>
    by_cases hx : isDigit x
    · cases hdw : xs.dropWhile isDigit with
      | nil =>
        have hall : xs.all isDigit = true := by
          rw [List.all_eq_true]
          intro y hy
          exact List.dropWhile_eq_nil_iff.mp hdw y hy
        simp [vnBody, List.takeWhile_cons, hx, hall, List.drop_succ_cons,
          drop_length_takeWhile, hdw]
      | cons e r1 =>
        have hallf : xs.all isDigit = false := by
          by_contra hcon
          rw [Bool.not_eq_false, List.all_eq_true] at hcon
          have h0 := List.dropWhile_eq_nil_iff.mpr hcon
          rw [h0] at hdw
          exact List.noConfusion hdw
        simp only [vnBody, pvrnBody, List.takeWhile_cons, hx, if_true,
          List.isEmpty_cons, List.all_cons, hallf, Bool.and_false,
          Bool.not_false, Bool.false_and, Bool.and_self, List.length_cons,
          List.drop_succ_cons, drop_length_takeWhile, hdw]
        simp
    · have hallf : (x :: xs).all isDigit = false := by
        simp [List.all_cons, hx]
      simp [vnBody, pvrnBody, List.takeWhile_cons, hx, hallf]

/-- The ValidateParser raw-number scanner accepts exactly the RFC 7159
    number grammar with optional leading minus. -/
theorem pvrn_agree (s : List Nat) : pvrnTail s = .ok [] ↔ rfcNumber s = true := by
  cases s with
  | nil => simp [pvrnTail, rfcNumber]
  | cons c r =>
    simp only [pvrnTail, rfcNumber]
    exact pvrnBody_agree _

/-- The validate.go number scanner accepts exactly the RFC 7159 numbers plus
    the all-digit-with-optional-minus shapes (redundant leading zeros slip
    through its early return). -/
theorem vn_agree (s : List Nat) :
    validateNumber s = .ok [] ↔ (rfcNumber s || allDigitsOptMinus s) = true := by
  cases s with
  | nil => simp [validateNumber, rfcNumber, allDigitsOptMinus]
  | cons c r =>
    simp only [validateNumber, rfcNumber, allDigitsOptMinus]
    rw [vnBody_eq]
    by_cases hall : (!(if c = 45 then r else c :: r).isEmpty
        && (if c = 45 then r else c :: r).all isDigit) = true
    · simp [hall]
    · simp only [hall, if_false, Bool.false_eq_true]
      rw [pvrnBody_agree]
      simp [hall]

/-- C4 counterexample: the strict parse path of `ValidateParser.Parse`
    accepts the literal nan as a number (its value dispatch tries NaN before
    failing the null literal), and the standalone `Validate` accepts the
    redundant-leading-zero number 00, which is not in the RFC 7159 grammar. -/
theorem c4_counterexample :
    validateParserParse [110, 97, 110] = .ok (.num [110, 97, 110]) ∧
    validateOk [48, 48] = true ∧
    rfcNumber [48, 48] = false :=
  ⟨rfl, by decide, by decide⟩

/-- C4 amended: the ValidateParser raw-number scanner accepts exactly the
    RFC 7159 number grammar with optional leading minus; the validate.go
    number scanner accepts exactly that grammar plus optional-minus digit
    runs with redundant leading zeros (accepted by its early return when the
    digits reach the end of the input, e.g. 00); both reject a leading plus,
    a leading dot, an empty fraction, an empty exponent and the literal inf,
    but the ValidateParser value dispatch accepts the literal nan as a
    number while the standalone validator rejects it. -/
theorem c4_amended :
    (∀ s : List Nat, pvrnTail s = .ok [] ↔ rfcNumber s = true) ∧
    (∀ s : List Nat,
      validateNumber s = .ok [] ↔ (rfcNumber s || allDigitsOptMinus s) = true) ∧
    pvrnTail [48, 49] = .error .badNumber ∧
    validateNumber [48, 49] = .ok [] ∧
    pvrnTail [43, 49] = .error .badNumber ∧
    validateNumber [43, 49] = .error .badNumber ∧
    pvrnTail [46, 53] = .error .badNumber ∧
    validateNumber [46, 53] = .error .badNumber ∧
    pvrnTail [49, 46] = .error .badNumber ∧
    validateNumber [49, 46] = .error .badNumber ∧
    pvrnTail [49, 101] = .error .badNumber ∧
    validateNumber [49, 101] = .error .badNumber ∧
    pvrnTail [105, 110, 102] = .error .badNumber ∧
    validateNumber [105, 110, 102] = .error .badNumber ∧
    validateParserParse [110, 97, 110] = .ok (.num [110, 97, 110]) ∧
    validateOk [110, 97, 110] = false :=
  ⟨pvrn_agree, vn_agree, rfl, rfl, rfl, rfl, rfl, rfl, rfl, rfl, rfl, rfl,
   rfl, rfl, rfl, by decide⟩


/-- skipWS is the identity when the head is not whitespace. -/
theorem skipWS_cons_of_not_ws {c : Nat} (r : List Nat) (h : isWS c = false) :
    skipWS (c :: r) = c :: r := by
  simp [skipWS, h]

/-- Whitespace bytes are not number characters. -/
theorem not_numChar_of_ws {c : Nat} (h : isWS c = true) : isNumChar c = false := by
  have hc : c = 32 ∨ c = 10 ∨ c = 9 ∨ c = 13 := by
    simp only [isWS, Bool.or_eq_true, decide_eq_true_eq] at h
    tauto
  rcases hc with rfl | rfl | rfl | rfl <;> decide

/-- A tail whose whitespace-skipped form is empty is a good number tail. -/
theorem goodTail_of_skipWS_nil {t : List Nat} (h : skipWS t = []) :
    goodTail t = true := by
  cases t with
  | nil => rfl
  | cons c r =>
    by_cases hw : isWS c
    · simp [goodTail, not_numChar_of_ws hw]
    · rw [skipWS_cons_of_not_ws r (by simpa using hw)] at h
      exact List.noConfusion h

/-- A tail whose whitespace-skipped form starts with a non-number byte is a
    good number tail. -/
theorem goodTail_of_skipWS_cons {t r : List Nat} {c : Nat}
    (h : skipWS t = c :: r) (hc : isNumChar c = false) : goodTail t = true := by
  cases t with
  | nil => rfl
  | cons d r2 =>
    by_cases hw : isWS d
    · simp [goodTail, not_numChar_of_ws hw]
    · rw [skipWS_cons_of_not_ws r2 (by simpa using hw)] at h
      injection h with h1 _
      subst h1
      simp [goodTail, hc]

/-- A raw string scan reassembles as interior, closing quote, tail. -/
theorem parseRawStringAux_append :
    ∀ s a b : List Nat, parseRawStringAux s = some (a, b) → a ++ 34 :: b = s := by
  have main := parseRawStringAux.induct
    (fun s => ∀ a b : List Nat, parseRawStringAux s = some (a, b) → a ++ 34 :: b = s)
  apply main
  · intro a b h
    simp [parseRawStringAux] at h
  · intro rest a b h
    simp only [parseRawStringAux, Option.some.injEq, Prod.mk.injEq] at h
    rw [← h.1, ← h.2]
    rfl
  · intro c rest a0 b0 hsome ih a b h
    simp only [parseRawStringAux, hsome, Option.some.injEq, Prod.mk.injEq] at h
    rw [← h.1, ← h.2]
    simp only [List.cons_append, List.cons.injEq, true_and]
    exact ih a0 b0 hsome
  · intro c rest hnone ih a b h
    simp only [parseRawStringAux, hnone] at h
    exact Option.noConfusion h
  · intro a b h
    simp [parseRawStringAux] at h
  · intro c rest h34 h92c h92n a0 b0 hsome ih a b h
    simp only [parseRawStringAux, h34, h92c, h92n, hsome, Option.some.injEq,
      Prod.mk.injEq] at h
    rw [← h.1, ← h.2]
    simp only [List.cons_append, List.cons.injEq, true_and]
    exact ih a0 b0 hsome
  · intro c rest h34 h92c h92n hnone ih a b h
    simp only [parseRawStringAux, h34, h92c, h92n, hnone] at h
    exact Option.noConfusion h

/-- Digits are number characters. -/
theorem isNumChar_of_digit {c : Nat} (h : isDigit c = true) : isNumChar c = true := by
  simp only [isDigit, Bool.and_eq_true, decide_eq_true_eq] at h
  simp only [isNumChar, Bool.or_eq_true, Bool.and_eq_true, decide_eq_true_eq]
  omega

/-- Every element of a digit run is a number character. -/
theorem all_numChar_takeWhile_digit (l : List Nat) :
    (l.takeWhile isDigit).all isNumChar = true := by
  rw [List.all_eq_true]
  intro x hx
  exact isNumChar_of_digit (List.mem_takeWhile_imp hx)

/-- A list splits as its digit run followed by the drop of that length. -/
theorem runSplit (r4 : List Nat) :
    r4 = r4.takeWhile isDigit ++ r4.drop (r4.takeWhile isDigit).length := by
  rw [drop_length_takeWhile]
  exact (List.takeWhile_append_dropWhile isDigit r4).symm

/-- takeWhile distributes over an append whose left part satisfies the
    predicate everywhere. -/
theorem takeWhile_append_all (p : Nat → Bool) :
    ∀ P t : List Nat, P.all p = true → (P ++ t).takeWhile p = P ++ t.takeWhile p := by
  intro P
  induction P with
  | nil => simp
  | cons c r ih =>
    intro t hall
    simp only [List.all_cons, Bool.and_eq_true] at hall
    simp [List.takeWhile_cons, hall.1, ih t hall.2]

/-- Success shape of the digit-run pattern shared by the validate.go number
    scanner stages: the run is nonempty and the input splits as run ++ tail. -/
theorem digitRun_ok (r4 t : List Nat)
    (h : (match r4 with
          | [] => (Except.error Err.badNumber : Except Err (List Nat))
          | _ :: _ =>
            if (r4.takeWhile isDigit).length = 0 then Except.error Err.badNumber
            else Except.ok (r4.drop (r4.takeWhile isDigit).length)) = Except.ok t) :
    r4 = r4.takeWhile isDigit ++ t ∧ (r4.takeWhile isDigit).length ≠ 0 := by
  cases r4 with
  | nil => exact absurd h (by simp)
  | cons x xs =>
    by_cases hlen : ((x :: xs).takeWhile isDigit).length = 0
    · rw [if_pos hlen] at h
      exact absurd h (by simp)
    · rw [if_neg hlen] at h
      simp only [Except.ok.injEq] at h
      exact ⟨by rw [← h]; exact runSplit (x :: xs), hlen⟩

/-- An exponent part accepted by vnExp splits the input as an
    all-number-character prefix followed by the returned tail. -/
theorem vnExp_consumed (r t : List Nat) (h : vnExp r = .ok t) :
    ∃ Q, r = Q ++ t ∧ Q.all isNumChar = true := by
  cases r with
  | nil =>
    simp only [vnExp, Except.ok.injEq] at h
    exact ⟨[], by simp [← h], rfl⟩
  | cons c r2 =>
    by_cases hc : (c = 101 || c = 69) = true
    · have hcn : isNumChar c = true := by
        rcases Bool.or_eq_true_iff.mp hc with h1 | h1 <;>
          simp [decide_eq_true_eq.mp h1, isNumChar]
      cases r2 with
      | nil => simp [vnExp, hc] at h
      | cons d r3 =>
        simp only [vnExp, hc, if_true] at h
        obtain ⟨hsplit, hne⟩ := digitRun_ok _ t h
        by_cases hd : (d = 45 || d = 43) = true
        · have hdn : isNumChar d = true := by
            rcases Bool.or_eq_true_iff.mp hd with h1 | h1 <;>
              simp [decide_eq_true_eq.mp h1, isNumChar]
          rw [if_pos hd] at hsplit
          refine ⟨c :: d :: r3.takeWhile isDigit, ?_, ?_⟩
          · simp only [List.cons_append, List.cons.injEq, true_and]
            exact hsplit
          · simp only [List.all_cons, Bool.and_eq_true]
            exact ⟨hcn, hdn, all_numChar_takeWhile_digit _⟩
        · have hdb : (d = 45 || d = 43) = false := by
            rw [← Bool.not_eq_true]
            exact hd
          rw [if_neg hd] at hsplit
          refine ⟨c :: (d :: r3).takeWhile isDigit, ?_, ?_⟩
          · simp only [List.cons_append, List.cons.injEq, true_and]
            exact hsplit
          · simp only [List.all_cons, Bool.and_eq_true]
            exact ⟨hcn, all_numChar_takeWhile_digit _⟩
    · simp only [vnExp, hc, Bool.false_eq_true, if_false, Except.ok.injEq] at h
      exact ⟨[], by simp [← h], rfl⟩

/-- A fraction-exponent part accepted by vnFrac splits the input as an
    all-number-character prefix followed by the returned tail. -/
theorem vnFrac_consumed (r t : List Nat) (h : vnFrac r = .ok t) :
    ∃ Q, r = Q ++ t ∧ Q.all isNumChar = true := by
  cases r with
  | nil => exact vnExp_consumed [] t h
  | cons c r2 =>
    by_cases hc : c = 46
    · subst hc
      cases r2 with
      | nil => exact absurd h (by simp [vnFrac])
      | cons x xs =>
        simp only [vnFrac, if_true] at h
        by_cases hlen : ((x :: xs).takeWhile isDigit).length = 0
        · rw [if_pos hlen] at h
          exact absurd h (by simp)
        · rw [if_neg hlen, drop_length_takeWhile] at h
          have hsplit := (List.takeWhile_append_dropWhile isDigit (x :: xs)).symm
          cases hdw : (x :: xs).dropWhile isDigit with
          | nil =>
            rw [hdw] at h hsplit
            simp only [Except.ok.injEq] at h
            refine ⟨46 :: (x :: xs).takeWhile isDigit, ?_, ?_⟩
            · rw [← h, List.append_nil]
              simpa using hsplit
            · simp only [List.all_cons, Bool.and_eq_true]
              exact ⟨by simp [isNumChar], all_numChar_takeWhile_digit _⟩
          | cons e r3 =>
            rw [hdw] at h hsplit
            obtain ⟨Q, hQ, hQall⟩ := vnExp_consumed (e :: r3) t h
            refine ⟨46 :: ((x :: xs).takeWhile isDigit ++ Q), ?_, ?_⟩
            · show 46 :: (x :: xs) =
                46 :: (((x :: xs).takeWhile isDigit ++ Q) ++ t)
              refine congrArg (List.cons 46) ?_
              rw [List.append_assoc, ← hQ]
              exact hsplit
            · simp only [List.cons_append, List.all_cons, List.all_append,
                Bool.and_eq_true]
              exact ⟨by simp [isNumChar], all_numChar_takeWhile_digit _, hQall⟩
    · simp only [vnFrac, if_neg hc] at h
      exact vnExp_consumed (c :: r2) t h

/-- A number body accepted by vnBody splits the input as a nonempty
    all-number-character prefix, starting with a digit, followed by the
    returned tail. -/
theorem vnBody_consumed (s1 t : List Nat) (h : vnBody s1 = .ok t) :
    ∃ d P, s1 = (d :: P) ++ t ∧ isDigit d = true ∧ (d :: P).all isNumChar = true := by
  cases s1 with
  | nil => exact absurd h (by simp [vnBody])
  | cons x xs =>
    simp only [vnBody] at h
    by_cases hlen : ((x :: xs).takeWhile isDigit).length = 0
    · rw [if_pos hlen] at h
      exact absurd h (by simp)
    · rw [if_neg hlen, drop_length_takeWhile] at h
      have hxd : isDigit x = true := by
        by_contra hxd
        rw [Bool.not_eq_true] at hxd
        simp [List.takeWhile_cons, hxd] at hlen
      have htw : (x :: xs).takeWhile isDigit = x :: xs.takeWhile isDigit := by
        simp [List.takeWhile_cons, hxd]
      have hsplit := (List.takeWhile_append_dropWhile isDigit (x :: xs)).symm
      cases hdw : (x :: xs).dropWhile isDigit with
      | nil =>
        rw [hdw] at h hsplit
        simp only [Except.ok.injEq] at h
        refine ⟨x, xs.takeWhile isDigit, ?_, hxd, ?_⟩
        · rw [← h, List.append_nil, ← htw]
          simpa using hsplit
        · rw [← htw]
          exact all_numChar_takeWhile_digit _
      | cons e r1 =>
        rw [hdw] at h hsplit
        split at h
        · next heq => exact absurd heq (by simp)
        · next c2 r2 heq =>
          injection heq with he1 he2
          subst he1
          subst he2
          split at h
          · exact absurd h (by simp)
          · obtain ⟨Q, hQ, hQall⟩ := vnFrac_consumed (e :: r1) t h
            refine ⟨x, xs.takeWhile isDigit ++ Q, ?_, hxd, ?_⟩
            · rw [htw] at hsplit
              simp only [List.cons_append] at hsplit
              show x :: xs = x :: ((xs.takeWhile isDigit ++ Q) ++ t)
              refine congrArg (List.cons x) ?_
              rw [List.append_assoc, ← hQ]
              injection hsplit
            · simp only [List.cons_append, List.all_cons, List.all_append,
                Bool.and_eq_true]
              exact ⟨isNumChar_of_digit hxd, all_numChar_takeWhile_digit _, hQall⟩

/-- If the strict number scanner accepts a prefix of s and the tail cannot
    extend a number lexeme, the permissive raw-number scan consumes exactly
    that prefix. -/
theorem validateNumber_parseRawNumber (s t : List Nat)
    (h : validateNumber s = .ok t) (hg : goodTail t = true) :
    ∃ ns, parseRawNumber s = some (ns, t) ∧ ns ++ t = s := by
  have main : ∀ pre : List Nat, pre ≠ [] → pre.all isNumChar = true →
      (∀ d, pre.head? = some d → isDigit d = true ∨ (d = 45 ∧ 2 ≤ pre.length)) →
      ∀ tl, goodTail tl = true →
      ∃ ns, parseRawNumber (pre ++ tl) = some (ns, tl) ∧ ns ++ tl = pre ++ tl := by
    intro pre hne hall hhead tl hg2
    have htw : (pre ++ tl).takeWhile isNumChar = pre := by
      rw [takeWhile_append_all _ _ _ hall]
      cases tl with
      | nil => simp
      | cons u t2 =>
        simp only [goodTail, Bool.not_eq_true'] at hg2
        simp [List.takeWhile_cons, hg2]
    have hdrop : (pre ++ tl).drop pre.length = tl := by
      simp [List.drop_append_of_le_length]
    refine ⟨pre, ?_, rfl⟩
    simp only [parseRawNumber, htw, hdrop]
    cases tl with
    | nil => simp
    | cons u t2 =>
      have hcond : ¬(pre.length = 0 ∨ (pre.length = 1 ∧
          ((pre ++ u :: t2).head? = some 45 ∨ (pre ++ u :: t2).head? = some 43))) := by
        rintro (h0 | ⟨h1, hsgn⟩)
        · exact hne (List.length_eq_zero.mp h0)
        · cases pre with
          | nil => exact hne rfl
          | cons p ps =>
            have hps : ps = [] := by
              simpa using h1
            subst hps
            rcases hhead p rfl with hdig | ⟨h45, hlen⟩
            · simp at hsgn
              simp [isDigit] at hdig
              rcases hsgn with h45 | h43 <;> omega
            · simp at hlen
      rw [if_neg ?_]
      · simp [List.take_left]
      · simpa using hcond
  cases s with
  | nil => exact absurd h (by simp [validateNumber])
  | cons c r =>
    simp only [validateNumber] at h
    by_cases hc : c = 45
    · subst hc
      rw [if_pos rfl] at h
      obtain ⟨d, P, hsplit, hd, hall⟩ := vnBody_consumed r t h
      have heq : (45 : Nat) :: r = (45 :: d :: P) ++ t := by simp [hsplit]
      rw [heq]
      refine main (45 :: d :: P) (by simp) ?_ ?_ t hg
      · simp only [List.all_cons, Bool.and_eq_true] at hall ⊢
        exact ⟨by simp [isNumChar], hall⟩
      · intro e he
        simp only [List.head?_cons, Option.some.injEq] at he
        refine Or.inr ⟨he.symm, ?_⟩
        simp only [List.length_cons]
        omega
    · rw [if_neg hc] at h
      obtain ⟨d, P, hsplit, hd, hall⟩ := vnBody_consumed (c :: r) t h
      rw [hsplit]
      refine main (d :: P) (by simp) hall ?_ t hg
      intro e he
      simp only [List.head?_cons, Option.some.injEq] at he
      left
      subst he
      exact hd

/-- A string accepted by the strict escape checker is scanned by the shared
    raw-string scanner with the same tail. -/
theorem validateString_parseRawString (s t : List Nat)
    (h : validateString s = .ok t) :
    ∃ rs, parseRawString s = some (rs, t) := by
  unfold validateString at h
  cases hpr : parseRawString s with
  | none => simp [hpr] at h
  | some p =>
    obtain ⟨rs, tail⟩ := p
    simp only [hpr] at h
    by_cases hesc : validateEscCont rs = true
    · rw [if_pos hesc] at h
      simp only [Except.ok.injEq] at h
      exact ⟨rs, by rw [h]⟩
    · rw [if_neg hesc] at h
      exact absurd h (by simp)

/-- A depth-flagged result is an error whose innermost cause is depth
    exhaustion. -/
theorem isDepthResult_error {A : Type} {r : Except Err A}
    (h : isDepthResult r = true) : ∃ e, r = .error e ∧ e.isDepth = true := by
  cases r with
  | error e => exact ⟨e, rfl, h⟩
  | ok a => simp [isDepthResult] at h

/-- Fuel-indexed inclusion of the strict validator in the permissive parser:
    whenever a validator stage accepts with a tail that cannot extend a
    number lexeme, the corresponding parser stage at any depth either
    accepts with the same tail or fails by depth exhaustion. -/
theorem v2p (n : Nat) :
    (∀ s t, validateValueF n s = .ok t → goodTail t = true → ∀ depth,
      (∃ v, parseValueF n s depth = .ok (v, t)) ∨
        isDepthResult (parseValueF n s depth) = true) ∧
    (∀ s t, validateArrayLoopF n s = .ok t → goodTail t = true → ∀ depth acc,
      (∃ v, parseArrayLoopF n acc s depth = .ok (v, t)) ∨
        isDepthResult (parseArrayLoopF n acc s depth) = true) ∧
    (∀ s t, validateObjectLoopF n s = .ok t → goodTail t = true → ∀ depth acc,
      (∃ v, parseObjectLoopF n acc s depth = .ok (v, t)) ∨
        isDepthResult (parseObjectLoopF n acc s depth) = true) := by
  induction n with
  | zero =>
    refine ⟨?_, ?_, ?_⟩ <;> intro s t h <;> exact absurd h (by simp [validateValueF,
      validateArrayLoopF, validateObjectLoopF])
  | succ n ih =>
    obtain ⟨ihV, ihA, ihO⟩ := ih
    refine ⟨?_, ?_, ?_⟩
    · -- value stage
      intro s t h hg depth
      cases s with
      | nil => exact absurd h (by simp [validateValueF])
      | cons c rest =>
        by_cases hdep : MaxDepth < depth + 1
        · right
          have hp : parseValueF (n + 1) (c :: rest) depth = .error .depthExceeded := by
            simp [parseValueF, hdep]
          rw [hp]
          rfl
        · simp only [validateValueF] at h
          by_cases h123 : c = 123
          · subst h123
            rw [if_pos rfl] at h
            cases hsw : skipWS rest with
            | nil => simp [hsw] at h
            | cons d rest1 =>
              simp only [hsw] at h
              by_cases hd : d = 125
              · subst hd
                rw [if_pos rfl] at h
                simp only [Except.ok.injEq] at h
                subst h
                left
                exact ⟨.obj [] false, by simp [parseValueF, hdep, hsw]⟩
              · rw [if_neg hd] at h
                cases hin : validateObjectLoopF n (d :: rest1) with
                | error e => simp [hin] at h
                | ok t2 =>
                  simp only [hin] at h
                  simp only [Except.ok.injEq] at h
                  rw [h] at hin
                  rcases ihO (d :: rest1) t hin hg (depth + 1) [] with ⟨v, hpv⟩ | hdr
                  · left
                    exact ⟨v, by simp [parseValueF, hdep, hsw, hd, hpv]⟩
                  · right
                    obtain ⟨e, he, hed⟩ := isDepthResult_error hdr
                    have hp : parseValueF (n + 1) (123 :: rest) depth =
                        .error (.inObject e) := by
                      simp [parseValueF, hdep, hsw, hd, he]
                    rw [hp]
                    simpa [isDepthResult, Err.isDepth] using hed
          · by_cases h91 : c = 91
            · subst h91
              rw [if_neg h123, if_pos rfl] at h
              cases hsw : skipWS rest with
              | nil => simp [hsw] at h
              | cons d rest1 =>
                simp only [hsw] at h
                by_cases hd : d = 93
                · subst hd
                  rw [if_pos rfl] at h
                  simp only [Except.ok.injEq] at h
                  subst h
                  left
                  exact ⟨.arr [], by simp [parseValueF, hdep, h123, hsw]⟩
                · rw [if_neg hd] at h
                  cases hin : validateArrayLoopF n (d :: rest1) with
                  | error e => simp [hin] at h
                  | ok t2 =>
                    simp only [hin] at h
                    simp only [Except.ok.injEq] at h
                    rw [h] at hin
                    rcases ihA (d :: rest1) t hin hg (depth + 1) [] with ⟨v, hpv⟩ | hdr
                    · left
                      exact ⟨v, by simp [parseValueF, hdep, h123, hsw, hd, hpv]⟩
                    · right
                      obtain ⟨e, he, hed⟩ := isDepthResult_error hdr
                      have hp : parseValueF (n + 1) (91 :: rest) depth =
                          .error (.inArray e) := by
                        simp [parseValueF, hdep, h123, hsw, hd, he]
                      rw [hp]
                      simpa [isDepthResult, Err.isDepth] using hed
            · by_cases h34 : c = 34
              · subst h34
                rw [if_neg h123, if_neg h91, if_pos rfl] at h
                cases hvs : validateString rest with
                | error e => simp [hvs] at h
                | ok t2 =>
                  simp only [hvs] at h
                  simp only [Except.ok.injEq] at h
                  rw [h] at hvs
                  obtain ⟨rs, hrs⟩ := validateString_parseRawString rest t hvs
                  left
                  exact ⟨.rawstr rs, by simp [parseValueF, hdep, h123, h91, hrs]⟩
              · by_cases h116 : c = 116
                · subst h116
                  rw [if_neg h123, if_neg h91, if_neg h34, if_pos rfl] at h
                  split at h
                  · next r =>
                    simp only [Except.ok.injEq] at h
                    subst h
                    left
                    exact ⟨.vtrue, by simp [parseValueF, hdep, h123, h91, h34]⟩
                  · exact absurd h (by simp)
                · by_cases h102 : c = 102
                  · subst h102
                    rw [if_neg h123, if_neg h91, if_neg h34, if_neg h116,
                      if_pos rfl] at h
                    split at h
                    · next r =>
                      simp only [Except.ok.injEq] at h
                      subst h
                      left
                      exact ⟨.vfalse, by simp [parseValueF, hdep, h123, h91, h34, h116]⟩
                    · exact absurd h (by simp)
                  · by_cases h110 : c = 110
                    · subst h110
                      rw [if_neg h123, if_neg h91, if_neg h34, if_neg h116,
                        if_neg h102, if_pos rfl] at h
                      split at h
                      · next r =>
                        simp only [Except.ok.injEq] at h
                        subst h
                        left
                        refine ⟨.vnull, ?_⟩
                        simp [parseValueF, hdep, h123, h91, h34, h116, h102]
                      · exact absurd h (by simp)
                    · rw [if_neg h123, if_neg h91, if_neg h34, if_neg h116,
                        if_neg h102, if_neg h110] at h
                      cases hvn : validateNumber (c :: rest) with
                      | error e => simp [hvn] at h
                      | ok t2 =>
                        simp only [hvn] at h
                        simp only [Except.ok.injEq] at h
                        rw [h] at hvn
                        obtain ⟨ns, hns, _⟩ :=
                          validateNumber_parseRawNumber (c :: rest) t hvn hg
                        left
                        refine ⟨.num ns, ?_⟩
                        simp [parseValueF, hdep, h123, h91, h34, h116, h102,
                          h110, hns]
    · -- array loop stage
      intro s t h hg depth acc
      simp only [validateArrayLoopF] at h
      cases hv : validateValueF n (skipWS s) with
      | error e => simp [hv] at h
      | ok s2 =>
        simp only [hv] at h
        cases hsw2 : skipWS s2 with
        | nil => simp [hsw2] at h
        | cons d s3 =>
          simp only [hsw2] at h
          by_cases hd44 : d = 44
          · subst hd44
            rw [if_pos rfl] at h
            have hg2 : goodTail s2 = true :=
              goodTail_of_skipWS_cons hsw2 (by decide)
            rcases ihV (skipWS s) s2 hv hg2 depth with ⟨v, hpv⟩ | hdr
            · rcases ihA s3 t h hg depth (acc ++ [v]) with ⟨va, hpa⟩ | hdra
              · left
                exact ⟨va, by simp [parseArrayLoopF, hpv, hsw2, hpa]⟩
              · right
                have hp : parseArrayLoopF (n + 1) acc s depth =
                    parseArrayLoopF n (acc ++ [v]) s3 depth := by
                  simp [parseArrayLoopF, hpv, hsw2]
                rw [hp]
                exact hdra
            · right
              obtain ⟨e, he, hed⟩ := isDepthResult_error hdr
              have hp : parseArrayLoopF (n + 1) acc s depth =
                  .error (.inArrayValue e) := by
                simp [parseArrayLoopF, he]
              rw [hp]
              simpa [isDepthResult, Err.isDepth] using hed
          · by_cases hd93 : d = 93
            · subst hd93
              rw [if_neg hd44, if_pos rfl] at h
              simp only [Except.ok.injEq] at h
              subst h
              have hg2 : goodTail s2 = true :=
                goodTail_of_skipWS_cons hsw2 (by decide)
              rcases ihV (skipWS s) s2 hv hg2 depth with ⟨v, hpv⟩ | hdr
              · left
                exact ⟨.arr (acc ++ [v]), by simp [parseArrayLoopF, hpv, hsw2, hd44]⟩
              · right
                obtain ⟨e, he, hed⟩ := isDepthResult_error hdr
                have hp : parseArrayLoopF (n + 1) acc s depth =
                    .error (.inArrayValue e) := by
                  simp [parseArrayLoopF, he]
                rw [hp]
                simpa [isDepthResult, Err.isDepth] using hed
            · rw [if_neg hd44, if_neg hd93] at h
              exact absurd h (by simp)
    · -- object loop stage
      intro s t h hg depth acc
      simp only [validateObjectLoopF] at h
      split at h
      · next s1 hsw =>
        cases hk : validateString s1 with
        | error e => simp [hk] at h
        | ok s2 =>
          simp only [hk] at h
          obtain ⟨rs, hrk⟩ := validateString_parseRawString s1 s2 hk
          have hrk2 : parseRawStringAux s1 = some (rs, s2) := hrk
          split at h
          · next s3 hsw2 =>
            cases hv : validateValueF n (skipWS s3) with
            | error e => simp [hv] at h
            | ok s4 =>
              simp only [hv] at h
              cases hsw4 : skipWS s4 with
              | nil => simp [hsw4] at h
              | cons d s5 =>
                simp only [hsw4] at h
                by_cases hd44 : d = 44
                · subst hd44
                  rw [if_pos rfl] at h
                  have hg2 : goodTail s4 = true :=
                    goodTail_of_skipWS_cons hsw4 (by decide)
                  rcases ihV (skipWS s3) s4 hv hg2 depth with ⟨v, hpv⟩ | hdr
                  · rcases ihO s5 t h hg depth (acc ++ [(rs, v)]) with ⟨vo, hpo⟩ | hdro
                    · left
                      refine ⟨vo, ?_⟩
                      simp [parseObjectLoopF, hsw, hrk, hrk2, hsw2, hpv, hsw4, hpo,
                        parseRawKey, parseRawString]
                    · right
                      have hp : parseObjectLoopF (n + 1) acc s depth =
                          parseObjectLoopF n (acc ++ [(rs, v)]) s5 depth := by
                        simp [parseObjectLoopF, hsw, hrk, hrk2, hsw2, hpv, hsw4,
                          parseRawKey, parseRawString]
                      rw [hp]
                      exact hdro
                  · right
                    obtain ⟨e, he, hed⟩ := isDepthResult_error hdr
                    have hp : parseObjectLoopF (n + 1) acc s depth =
                        .error (.inObjectValue e) := by
                      simp [parseObjectLoopF, hsw, hrk, hrk2, hsw2, he,
                        parseRawKey, parseRawString]
                    rw [hp]
                    simpa [isDepthResult, Err.isDepth] using hed
                · by_cases hd125 : d = 125
                  · subst hd125
                    rw [if_neg hd44, if_pos rfl] at h
                    simp only [Except.ok.injEq] at h
                    subst h
                    have hg2 : goodTail s4 = true :=
                      goodTail_of_skipWS_cons hsw4 (by decide)
                    rcases ihV (skipWS s3) s4 hv hg2 depth with ⟨v, hpv⟩ | hdr
                    · left
                      refine ⟨.obj (acc ++ [(rs, v)]) false, ?_⟩
                      simp [parseObjectLoopF, hsw, hrk, hrk2, hsw2, hpv, hsw4, hd44,
                        parseRawKey, parseRawString]
                    · right
                      obtain ⟨e, he, hed⟩ := isDepthResult_error hdr
                      have hp : parseObjectLoopF (n + 1) acc s depth =
                          .error (.inObjectValue e) := by
                        simp [parseObjectLoopF, hsw, hrk, hrk2, hsw2, he,
                          parseRawKey, parseRawString]
                      rw [hp]
                      simpa [isDepthResult, Err.isDepth] using hed
                  · rw [if_neg hd44, if_neg hd125] at h
                    exact absurd h (by simp)
          · exact absurd h (by simp)
      · exact absurd h (by simp)

/-- C3 amended: the strict validator accepted language is included in the
    permissive parser modulo the depth limit: any input accepted by
    `Validate` is either parsed successfully by `Parser.Parse` or rejected
    by it with the depth-exceeded error (validate.go has no depth counter,
    so deep documents pass validation yet fail parsing). -/
theorem c3_amended (s : List Nat) (h : validateOk s = true) :
    parseOk s = true ∨ parseDepthErr s = true := by
  simp only [validateOk, Validate] at h
  cases hv : validateValueF (fuelFor (skipWS s)) (skipWS s) with
  | error e => simp [hv] at h
  | ok tail =>
    simp only [hv] at h
    cases hsw : skipWS tail with
    | cons d r => simp [hsw] at h
    | nil =>
      have hg := goodTail_of_skipWS_nil hsw
      rcases (v2p (fuelFor (skipWS s))).1 (skipWS s) tail hv hg 0 with ⟨v, hp⟩ | hdr
      · left
        simp [parseOk, parse, hp, hsw]
      · right
        obtain ⟨e, he, hed⟩ := isDepthResult_error hdr
        simpa [parseDepthErr, parse, he, Err.isDepth] using hed

theorem c3_amended_witness :
    validateOk [49] = true ∧ (parseOk [49] = true ∨ parseDepthErr [49] = true) :=
  ⟨by decide, c3_amended [49] (by decide)⟩

/-- The marshalled element list with a closing bracket is the array-loop
    suffix rendering. -/
theorem marshalElems_arrTail :
    ∀ elems : List Val, elems ≠ [] → marshalElems elems ++ [93] = arrTail elems := by
  intro elems
  induction elems with
  | nil => intro h; exact absurd rfl h
  | cons v vs ih =>
    intro _
    cases vs with
    | nil => simp [marshalElems, arrTail]
    | cons v2 vs2 =>
      simp only [marshalElems, arrTail, List.append_assoc, List.cons_append]
      rw [← ih (by simp)]

/-- The marshalled entry list (keys verbatim) with a closing brace is the
    object-loop suffix rendering. -/
theorem marshalKVs_objTail :
    ∀ ents : List (List Nat × Val), ents ≠ [] →
      marshalKVs ents false ++ [125] = objTail ents := by
  intro ents
  induction ents with
  | nil => intro h; exact absurd rfl h
  | cons kv ents2 ih =>
    intro _
    obtain ⟨k, v⟩ := kv
    cases ents2 with
    | nil => simp [marshalKVs, objTail]
    | cons kv2 rest2 =>
      obtain ⟨k2, v2⟩ := kv2
      simp only [marshalKVs, objTail, Bool.false_eq_true, if_false,
        List.append_assoc, List.cons_append]
      rw [← ih (by simp)]
      simp

/-- Whitespace bytes are not digits. -/
theorem not_ws_of_digit {c : Nat} (h : isDigit c = true) : isWS c = false := by
  simp only [isDigit, Bool.and_eq_true, decide_eq_true_eq] at h
  simp only [isWS, Bool.or_eq_false_iff, decide_eq_false_iff_not]
  omega

/-- A value accepted by the no-whitespace strict checker starts with a
    non-whitespace byte. -/
theorem strictNoWS_head (n : Nat) (s t : List Nat)
    (h : strictNoWSValueF n s = .ok t) :
    ∃ c r, s = c :: r ∧ isWS c = false := by
  cases n with
  | zero => simp [strictNoWSValueF] at h
  | succ n =>
    cases s with
    | nil => simp [strictNoWSValueF] at h
    | cons c rest =>
      refine ⟨c, rest, rfl, ?_⟩
      by_cases h123 : c = 123
      · subst h123; decide
      by_cases h91 : c = 91
      · subst h91; decide
      by_cases h34 : c = 34
      · subst h34; decide
      by_cases h116 : c = 116
      · subst h116; decide
      by_cases h102 : c = 102
      · subst h102; decide
      by_cases h110 : c = 110
      · subst h110; decide
      simp only [strictNoWSValueF, if_neg h123, if_neg h91, if_neg h34,
        if_neg h116, if_neg h102, if_neg h110] at h
      cases hvn : validateNumber (c :: rest) with
      | error e => simp [hvn] at h
      | ok t2 =>
        simp only [validateNumber] at hvn
        by_cases hc45 : c = 45
        · subst hc45; decide
        · rw [if_neg hc45] at hvn
          obtain ⟨d, P, hsplit, hd, _⟩ := vnBody_consumed (c :: rest) t2 hvn
          have hcd : c = d := by
            have := congrArg List.head? hsplit
            simpa using this
          rw [hcd]
          exact not_ws_of_digit hd

/-- An object body accepted by the no-whitespace strict checker starts with
    a quote. -/
theorem strictNoWSObjectLoop_head (n : Nat) (s t : List Nat)
    (h : strictNoWSObjectLoopF n s = .ok t) : ∃ s1, s = 34 :: s1 := by
  cases n with
  | zero => simp [strictNoWSObjectLoopF] at h
  | succ n =>
    simp only [strictNoWSObjectLoopF] at h
    split at h
    · next s1 => exact ⟨s1, rfl⟩
    · exact absurd h (by simp)

/-- An array body accepted by the no-whitespace strict checker starts with a
    non-whitespace byte. -/
theorem strictNoWSArrayLoop_head (n : Nat) (s t : List Nat)
    (h : strictNoWSArrayLoopF n s = .ok t) :
    ∃ c r, s = c :: r ∧ isWS c = false := by
  cases n with
  | zero => simp [strictNoWSArrayLoopF] at h
  | succ n =>
    simp only [strictNoWSArrayLoopF] at h
    cases hv : strictNoWSValueF n s with
    | error e => simp [hv] at h
    | ok s2 => exact strictNoWS_head n s s2 hv

/-- Fuel-indexed round trip: on inputs accepted by the no-whitespace strict
    checker, a successful permissive parse stops at the same tail and
    marshalling the parsed value reproduces the consumed bytes. -/
theorem nws2p (n : Nat) :
    (∀ s t, strictNoWSValueF n s = .ok t → goodTail t = true →
      ∀ depth v t', parseValueF n s depth = .ok (v, t') →
        t' = t ∧ marshal v ++ t = s) ∧
    (∀ s t, strictNoWSArrayLoopF n s = .ok t → goodTail t = true →
      ∀ depth acc v t', parseArrayLoopF n acc s depth = .ok (v, t') →
        t' = t ∧ ∃ elems, elems ≠ [] ∧ v = .arr (acc ++ elems) ∧
          arrTail elems ++ t = s) ∧
    (∀ s t, strictNoWSObjectLoopF n s = .ok t → goodTail t = true →
      ∀ depth acc v t', parseObjectLoopF n acc s depth = .ok (v, t') →
        t' = t ∧ ∃ ents, ents ≠ [] ∧ v = .obj (acc ++ ents) false ∧
          objTail ents ++ t = s) := by
  induction n with
  | zero =>
    refine ⟨?_, ?_, ?_⟩ <;> intro s t h <;> exact absurd h (by
      simp [strictNoWSValueF, strictNoWSArrayLoopF, strictNoWSObjectLoopF])
  | succ n ih =>
    obtain ⟨ihV, ihA, ihO⟩ := ih
    refine ⟨?_, ?_, ?_⟩
    · -- value stage
      intro s t h hg depth v t' hp
      cases s with
      | nil => simp [strictNoWSValueF] at h
      | cons c rest =>
        simp only [strictNoWSValueF] at h
        simp only [parseValueF] at hp
        by_cases hdep : MaxDepth < depth + 1
        · rw [if_pos hdep] at hp
          exact absurd hp (by simp)
        · rw [if_neg hdep] at hp
          by_cases h123 : c = 123
          · subst h123
            rw [if_pos rfl] at h hp
            cases rest with
            | nil => simp at h
            | cons d rest1 =>
              by_cases hd125 : d = 125
              · subst hd125
                have hskip : skipWS (125 :: rest1) = 125 :: rest1 :=
                  skipWS_cons_of_not_ws _ (by decide)
                rw [hskip] at hp
                simp at h hp
                obtain ⟨hv1, ht1⟩ := hp
                refine ⟨by rw [← ht1, ← h], ?_⟩
                rw [← hv1, ← h]
                simp [marshal, marshalKVs]
              · cases hin : strictNoWSObjectLoopF n (d :: rest1) with
                | error e => simp [hd125, hin] at h
                | ok t2 =>
                  simp [hd125, hin] at h
                  rw [h] at hin
                  obtain ⟨s1x, hds⟩ := strictNoWSObjectLoop_head n (d :: rest1) t hin
                  have hdd : d = 34 := by
                    injection hds
                  have hskip : skipWS (d :: rest1) = d :: rest1 := by
                    subst hdd
                    exact skipWS_cons_of_not_ws _ (by decide)
                  cases hpo : parseObjectLoopF n [] (d :: rest1) (depth + 1) with
                  | error e => simp [hskip, hd125, hpo] at hp
                  | ok po =>
                    obtain ⟨vo, tl0⟩ := po
                    simp [hskip, hd125, hpo] at hp
                    obtain ⟨hv1, ht1⟩ := hp
                    obtain ⟨hteq, ents, hne, hvo, hbytes⟩ :=
                      ihO (d :: rest1) t hin hg (depth + 1) [] vo tl0 hpo
                    refine ⟨by rw [← ht1, hteq], ?_⟩
                    rw [← hv1, hvo]
                    simp only [List.nil_append, marshal]
                    rw [← hbytes, ← marshalKVs_objTail ents hne]
                    simp
          · by_cases h91 : c = 91
            · subst h91
              rw [if_neg h123, if_pos rfl] at h hp
              cases rest with
              | nil => simp at h
              | cons d rest1 =>
                by_cases hd93 : d = 93
                · subst hd93
                  have hskip : skipWS (93 :: rest1) = 93 :: rest1 :=
                    skipWS_cons_of_not_ws _ (by decide)
                  rw [hskip] at hp
                  simp at h hp
                  obtain ⟨hv1, ht1⟩ := hp
                  refine ⟨by rw [← ht1, ← h], ?_⟩
                  rw [← hv1, ← h]
                  simp [marshal, marshalElems]
                · cases hin : strictNoWSArrayLoopF n (d :: rest1) with
                  | error e => simp [hd93, hin] at h
                  | ok t2 =>
                    simp [hd93, hin] at h
                    rw [h] at hin
                    obtain ⟨c0, r0, hc0, hw0⟩ :=
                      strictNoWSArrayLoop_head n (d :: rest1) t hin
                    have hwd : isWS d = false := by
                      injection hc0 with h1 h2
                      rw [h1]
                      exact hw0
                    have hskip : skipWS (d :: rest1) = d :: rest1 :=
                      skipWS_cons_of_not_ws _ hwd
                    cases hpa : parseArrayLoopF n [] (d :: rest1) (depth + 1) with
                    | error e => simp [hskip, hd93, hpa] at hp
                    | ok pa =>
                      obtain ⟨va, ta⟩ := pa
                      simp [hskip, hd93, hpa] at hp
                      obtain ⟨hv1, ht1⟩ := hp
                      obtain ⟨hteq, elems, hne, hva, hbytes⟩ :=
                        ihA (d :: rest1) t hin hg (depth + 1) [] va ta hpa
                      refine ⟨by rw [← ht1, hteq], ?_⟩
                      rw [← hv1, hva]
                      simp only [List.nil_append, marshal]
                      rw [← hbytes, ← marshalElems_arrTail elems hne]
                      simp
            · by_cases h34 : c = 34
              · subst h34
                rw [if_neg h123, if_neg h91, if_pos rfl] at h hp
                cases hvs : validateString rest with
                | error e => simp [hvs] at h
                | ok t2 =>
                  simp only [hvs, Except.ok.injEq] at h
                  rw [h] at hvs
                  obtain ⟨rs, hrs⟩ := validateString_parseRawString rest t hvs
                  have hrs2 : parseRawStringAux rest = some (rs, t) := hrs
                  simp only [hrs, Option.some.injEq] at hp
                  simp only [Except.ok.injEq, Prod.mk.injEq] at hp
                  obtain ⟨hv1, ht1⟩ := hp
                  have hre : rs ++ 34 :: t = rest := parseRawStringAux_append rest rs t hrs2
                  refine ⟨ht1.symm, ?_⟩
                  rw [← hv1]
                  simp only [marshal, List.cons_append, List.append_assoc]
                  rw [← hre]
                  simp
              · by_cases h116 : c = 116
                · subst h116
                  rw [if_neg h123, if_neg h91, if_neg h34, if_pos rfl] at h hp
                  split at h
                  · next r =>
                    simp only [Except.ok.injEq] at h
                    simp at hp
                    obtain ⟨hv1, ht1⟩ := hp
                    refine ⟨by rw [← ht1, ← h], ?_⟩
                    rw [← hv1, ← h]
                    simp [marshal]
                  · exact absurd h (by simp)
                · by_cases h102 : c = 102
                  · subst h102
                    rw [if_neg h123, if_neg h91, if_neg h34, if_neg h116,
                      if_pos rfl] at h hp
                    split at h
                    · next r =>
                      simp only [Except.ok.injEq] at h
                      simp at hp
                      obtain ⟨hv1, ht1⟩ := hp
                      refine ⟨by rw [← ht1, ← h], ?_⟩
                      rw [← hv1, ← h]
                      simp [marshal]
                    · exact absurd h (by simp)
                  · by_cases h110 : c = 110
                    · subst h110
                      rw [if_neg h123, if_neg h91, if_neg h34, if_neg h116,
                        if_neg h102, if_pos rfl] at h hp
                      split at h
                      · next r =>
                        simp only [Except.ok.injEq] at h
                        simp at hp
                        obtain ⟨hv1, ht1⟩ := hp
                        refine ⟨by rw [← ht1, ← h], ?_⟩
                        rw [← hv1, ← h]
                        simp [marshal]
                      · exact absurd h (by simp)
                    · rw [if_neg h123, if_neg h91, if_neg h34, if_neg h116,
                        if_neg h102, if_neg h110] at h hp
                      cases hvn : validateNumber (c :: rest) with
                      | error e => simp [hvn] at h
                      | ok t2 =>
                        simp only [hvn, Except.ok.injEq] at h
                        rw [h] at hvn
                        obtain ⟨ns, hns, hbytes⟩ :=
                          validateNumber_parseRawNumber (c :: rest) t hvn hg
                        simp only [hns] at hp
                        simp only [Except.ok.injEq, Prod.mk.injEq] at hp
                        obtain ⟨hv1, ht1⟩ := hp
                        refine ⟨ht1.symm, ?_⟩
                        rw [← hv1]
                        simpa [marshal] using hbytes
    · -- array loop stage
      intro s t h hg depth acc v t' hp
      simp only [strictNoWSArrayLoopF] at h
      cases hv : strictNoWSValueF n s with
      | error e => simp [hv] at h
      | ok s2 =>
        simp only [hv] at h
        obtain ⟨c0, r0, hs0, hws0⟩ := strictNoWS_head n s s2 hv
        have hskip : skipWS s = s := by
          rw [hs0]
          exact skipWS_cons_of_not_ws _ hws0
        simp only [parseArrayLoopF, hskip] at hp
        cases hpv : parseValueF n s depth with
        | error e => simp [hpv] at hp
        | ok p =>
          obtain ⟨v1, s2p⟩ := p
          simp only [hpv] at hp
          cases s2 with
          | nil => simp at h
          | cons d s3 =>
            by_cases hd44 : d = 44
            · subst hd44
              have hgood : goodTail (44 :: s3) = true := rfl
              obtain ⟨hs2eq, hbv⟩ := ihV s (44 :: s3) hv hgood depth v1 s2p hpv
              subst hs2eq
              simp at h
              have hskip2 : skipWS (44 :: s3) = 44 :: s3 :=
                skipWS_cons_of_not_ws _ (by decide)
              simp only [hskip2] at hp
              simp at hp
              obtain ⟨hteq, elems, hne, hva, hbytes⟩ :=
                ihA s3 t h hg depth (acc ++ [v1]) v t' hp
              refine ⟨hteq, v1 :: elems, by simp, ?_, ?_⟩
              · rw [hva]
                simp
              · cases elems with
                | nil => exact absurd rfl hne
                | cons e2 es =>
                  rw [show arrTail (v1 :: e2 :: es) =
                      marshal v1 ++ 44 :: arrTail (e2 :: es) from by simp [arrTail]]
                  rw [← hbv, ← hbytes]
                  simp [List.append_assoc]
            · by_cases hd93 : d = 93
              · subst hd93
                have hgood : goodTail (93 :: s3) = true := rfl
                obtain ⟨hs2eq, hbv⟩ := ihV s (93 :: s3) hv hgood depth v1 s2p hpv
                subst hs2eq
                simp at h
                have hskip2 : skipWS (93 :: s3) = 93 :: s3 :=
                  skipWS_cons_of_not_ws _ (by decide)
                simp only [hskip2] at hp
                simp at hp
                obtain ⟨hv1, ht1⟩ := hp
                refine ⟨by rw [← ht1, h], [v1], by simp, by rw [← hv1], ?_⟩
                rw [show arrTail [v1] = marshal v1 ++ [93] from by simp [arrTail]]
                rw [← h, ← hbv]
                simp [List.append_assoc]
              · simp [hd44, hd93] at h
    · -- object loop stage
      intro s t h hg depth acc v t' hp
      simp only [strictNoWSObjectLoopF] at h
      split at h
      · next s1 =>
        cases hk : validateString s1 with
        | error e => simp [hk] at h
        | ok s2 =>
          simp only [hk] at h
          obtain ⟨rs, hrk⟩ := validateString_parseRawString s1 s2 hk
          have hrk2 : parseRawStringAux s1 = some (rs, s2) := hrk
          have hrk3 : parseRawKey s1 = some (rs, s2) := hrk
          have hkey : rs ++ 34 :: s2 = s1 := parseRawStringAux_append s1 rs s2 hrk2
          have hskip : skipWS (34 :: s1) = 34 :: s1 :=
            skipWS_cons_of_not_ws _ (by decide)
          simp only [parseObjectLoopF, hskip, hrk3] at hp
          split at h
          · next s3 =>
            have hskip2 : skipWS (58 :: s3) = 58 :: s3 :=
              skipWS_cons_of_not_ws _ (by decide)
            simp only [hskip2] at hp
            cases hval : strictNoWSValueF n s3 with
            | error e => simp [hval] at h
            | ok s4 =>
              simp only [hval] at h
              obtain ⟨c4, r4, hc4, hw4⟩ := strictNoWS_head n s3 s4 hval
              have hskip3 : skipWS s3 = s3 := by
                rw [hc4]
                exact skipWS_cons_of_not_ws _ hw4
              rw [hskip3] at hp
              cases hpv : parseValueF n s3 depth with
              | error e => simp [hpv] at hp
              | ok p =>
                obtain ⟨v1, s4p⟩ := p
                simp only [hpv] at hp
                cases s4 with
                | nil => simp at h
                | cons d s5 =>
                  by_cases hd44 : d = 44
                  · subst hd44
                    have hgood : goodTail (44 :: s5) = true := rfl
                    obtain ⟨hs4eq, hbv⟩ := ihV s3 (44 :: s5) hval hgood depth v1 s4p hpv
                    subst hs4eq
                    simp at h
                    have hskip4 : skipWS (44 :: s5) = 44 :: s5 :=
                      skipWS_cons_of_not_ws _ (by decide)
                    simp only [hskip4] at hp
                    simp at hp
                    obtain ⟨hteq, ents, hne, hvv, hbytes⟩ :=
                      ihO s5 t h hg depth (acc ++ [(rs, v1)]) v t' hp
                    refine ⟨hteq, (rs, v1) :: ents, by simp, ?_, ?_⟩
                    · rw [hvv]
                      simp
                    · cases ents with
                      | nil => exact absurd rfl hne
                      | cons e2 es =>
                        rw [show objTail ((rs, v1) :: e2 :: es) =
                            34 :: rs ++ 34 :: 58 :: marshal v1 ++ 44 :: objTail (e2 :: es)
                          from by simp [objTail]]
                        rw [← hkey, ← hbv, ← hbytes]
                        simp [List.append_assoc]
                  · by_cases hd125 : d = 125
                    · subst hd125
                      have hgood : goodTail (125 :: s5) = true := rfl
                      obtain ⟨hs4eq, hbv⟩ := ihV s3 (125 :: s5) hval hgood depth v1 s4p hpv
                      subst hs4eq
                      simp at h
                      have hskip4 : skipWS (125 :: s5) = 125 :: s5 :=
                        skipWS_cons_of_not_ws _ (by decide)
                      simp only [hskip4] at hp
                      simp at hp
                      obtain ⟨hv1, ht1⟩ := hp
                      refine ⟨by rw [← ht1, h], [(rs, v1)], by simp, by rw [← hv1], ?_⟩
                      rw [show objTail [(rs, v1)] =
                          34 :: rs ++ 34 :: 58 :: marshal v1 ++ [125] from by simp [objTail]]
                      rw [← h, ← hkey, ← hbv]
                      simp [List.append_assoc]
                    · simp [hd44, hd125] at h
          · exact absurd h (by simp)
      · exact absurd h (by simp)

/-- C6 amended: for every input accepted by the strict grammar with no
    whitespace outside string literals (encoded by the skipWS-free validator
    `strictNoWSValueF` consuming the whole input), a successful
    `Parser.Parse` followed immediately by `MarshalTo` (no typed access, so
    strings and numbers stay in their raw lexeme state) reproduces the
    input byte for byte. -/
theorem c6_amended (s : List Nat) (v : Val)
    (h1 : strictNoWSAccept s = true) (h2 : parse s = .ok v) :
    marshal v = s := by
  simp only [strictNoWSAccept] at h1
  cases hsv : strictNoWSValueF (fuelFor s) s with
  | error e => rw [hsv] at h1; simp at h1
  | ok t0 =>
    rw [hsv] at h1
    cases t0 with
    | cons d r => simp at h1
    | nil =>
      obtain ⟨c0, r0, hc0, hw0⟩ := strictNoWS_head (fuelFor s) s [] hsv
      have hskip : skipWS s = s := by
        rw [hc0]
        exact skipWS_cons_of_not_ws _ hw0
      simp only [parse, hskip] at h2
      cases hpr : parseValueF (fuelFor s) s 0 with
      | error e => simp [hpr] at h2
      | ok p =>
        obtain ⟨v1, tail⟩ := p
        simp only [hpr] at h2
        obtain ⟨hteq, hbytes⟩ := (nws2p (fuelFor s)).1 s [] hsv rfl 0 v1 tail hpr
        subst hteq
        simp [skipWS] at h2
        rw [← h2]
        simpa using hbytes

/-- C6 amended, witness: the general round-trip theorem applied to the
    concrete no-whitespace document with bytes of a one-entry object. -/
theorem c6_amended_witness :
    strictNoWSAccept [123, 34, 97, 34, 58, 49, 125] = true ∧
    marshal (Val.obj [([97], Val.num [49])] false) =
      [123, 34, 97, 34, 58, 49, 125] :=
  ⟨by decide,
   c6_amended [123, 34, 97, 34, 58, 49, 125]
     (Val.obj [([97], Val.num [49])] false) (by decide) rfl⟩

end Fastjson
